import Mathlib

/-!
Verification development for the `solar_eclipse` Home Assistant integration
(`custom_components/solar_eclipse/sensor.py` and `const.py`).

The repository's algorithmic core is shallowly embedded here:

* the geometric overlap calculator (`async_calculate_coverage_percent`,
  lines 404-431, and the inner `coverage` closure of
  `async_find_contact_times`, lines 490-507), over `ℝ`, with the source's
  hard-coded literal `3.1415926535` kept as an exact rational constant;
* the two-phase grid search `async_find_local_maximum` (lines 433-475) and
  the contact-time scan `async_find_contact_times` (lines 477-525), with
  time modelled in whole minutes (`ℤ`) — every step of the source is a
  whole number of minutes — and the ephemeris modelled as an abstract
  separation function `ℤ → ℝ`;
* the catalog row processing and deduplication of `_async_fetch_nasa`
  (lines 243-287), the 24h TTL cache (`_cache_set`/`_cache_get`,
  lines 187-195) and the refresh fallback chain (`_async_update_data`,
  lines 337-356), the batched visibility selection (lines 362-389), the
  retrying fetcher `_async_fetch_text` (lines 197-217), and the regional
  visibility resolver `_async_visible_in_region` (lines 306-335).

External effects (HTTP, the Skyfield ephemeris, regex searches over
fetched pages) are modelled as explicit oracle parameters; everything the
source computes itself is translated directly.
-/

namespace SolarEclipse

/-! ### Calendar model

Python `datetime` objects compare lexicographically on
(year, month, day, hour, minute); the parser never sets seconds.  We keep
the five components and compare through an order-preserving numeric key
(all components produced by the parser are below 100 except the year,
which is the most significant component). -/

/-- Model of the (year, month, day, hour, minute) part of a Python
`datetime`; the parser and the fallback list only ever populate these five
fields. -/
structure PyDateTime where
  year : ℕ
  month : ℕ
  day : ℕ
  hour : ℕ
  minute : ℕ
deriving DecidableEq

/-- Order-preserving key for `PyDateTime` comparison (lexicographic, as in
Python, for component values below 100). -/
def dateKey (d : PyDateTime) : ℕ :=
  (((d.year * 100 + d.month) * 100 + d.day) * 100 + d.hour) * 100 + d.minute

/-- Leap-year test exactly as Python's `calendar`/`datetime` validity rule. -/
def isLeap (y : ℕ) : Bool :=
  y % 4 == 0 && (y % 100 != 0 || y % 400 == 0)

/-- Days in a month, as used by `datetime` validity checking. -/
def daysInMonth (y m : ℕ) : ℕ :=
  if m == 2 then (if isLeap y then 29 else 28)
  else if m == 4 || m == 6 || m == 9 || m == 11 then 30
  else 31

/-- Model of the Python `datetime(year, month, day, hour, minute)`
constructor: `some` on valid components, `none` when the constructor would
raise `ValueError`. -/
def mkDatetime (y mo d hh mi : ℕ) : Option PyDateTime :=
  if 1 ≤ mo ∧ mo ≤ 12 ∧ 1 ≤ d ∧ d ≤ daysInMonth y mo ∧ hh ≤ 23 ∧ mi ≤ 59 then
    some ⟨y, mo, d, hh, mi⟩
  else none

/-! ### EclipseEvent (sensor.py lines 117-124)

The parser always sets `start`/`end` to `None`, so they are omitted. -/

/-- Model of the `EclipseEvent` dataclass fields populated by the parser. -/
structure EclipseEvent where
  identifier : String
  date : PyDateTime
  type : String
  region_text : Option String
deriving DecidableEq

/-! ### Catalog row processing (sensor.py lines 243-261)

A row that matched the extraction regex yields captures
`(year, monthText, day, typeRaw, hh, mm)`; the code below the match is
translated here.  The regex guarantees the shapes: `year` is `20\d\d`,
`monthText` is a case variant of a three-letter month abbreviation, `day`
has one or two digits, `hh`/`mm` have exactly two digits. -/

/-- Python `str.title()` for the single-word strings that the type/month
capture groups can produce: first character upper-cased, rest lower-cased. -/
def pyTitle (s : String) : String :=
  match s.data with
  | [] => ""
  | c :: cs => ⟨c.toUpper :: cs.map Char.toLower⟩

/-- Python `str.upper()`. -/
def pyUpper (s : String) : String :=
  ⟨s.data.map Char.toUpper⟩

/-- The `month_map` dictionary (sensor.py lines 221-224). -/
def month_map : List (String × ℕ) :=
  [("Jan", 1), ("Feb", 2), ("Mar", 3), ("Apr", 4), ("May", 5), ("Jun", 6),
   ("Jul", 7), ("Aug", 8), ("Sep", 9), ("Oct", 10), ("Nov", 11), ("Dec", 12)]

/-- Lookup in an association list by key, as Python `dict.get`. -/
def assocGet (l : List (String × α)) (k : String) : Option α :=
  (l.find? (fun p => p.1 == k)).map (fun p => p.2)

/-- The `type_map` dictionary (sensor.py lines 225-234). -/
def type_map : List (String × String) :=
  [("T", "Total"), ("A", "Annular"), ("P", "Partial"), ("H", "Hybrid"),
   ("Total", "Total"), ("Annular", "Annular"), ("Partial", "Partial"),
   ("Hybrid", "Hybrid")]

/-- Model of `type_map.get(typ_raw.title(), type_map.get(typ_raw.upper(), "Partial"))`. -/
def normalizeType (typRaw : String) : String :=
  match assocGet type_map (pyTitle typRaw) with
  | some t => t
  | none =>
    match assocGet type_map (pyUpper typRaw) with
    | some t => t
    | none => "Partial"

/-- Zero-padded decimal rendering of width 2, as Python `%02d` for values
below 100. -/
def pad2 (n : ℕ) : String :=
  if n < 10 then "0" ++ toString n else toString n

/-- Model of the identifier format string `%04d-%02d-%02d` for the year
range `20xx` produced by the regex. -/
def identFor (y mo d : ℕ) : String :=
  toString y ++ "-" ++ pad2 mo ++ "-" ++ pad2 d

/-- Model of the per-row event construction (sensor.py lines 247-261): the
month is looked up in `month_map`; `datetime` construction is attempted
with the captured time and, if it raises, retried at midnight (the
`try`/`except` block); a second failure propagates the exception, which we
model as `none`.  A failed month lookup also leads to two constructor
failures, hence `none`. -/
def processRow (year : ℕ) (monTxt : String) (day : ℕ) (typRaw : String)
    (hh mi : ℕ) : Option EclipseEvent :=
  match assocGet month_map (pyTitle monTxt) with
  | none => none
  | some mo =>
    match mkDatetime year mo day hh mi with
    | some dt => some ⟨identFor year mo day, dt, normalizeType typRaw, none⟩
    | none =>
      match mkDatetime year mo day 0 0 with
      | some dt => some ⟨identFor year mo day, dt, normalizeType typRaw, none⟩
      | none => none

/-! ### Deduplication and sorting (sensor.py lines 279-287)

The `uniq` dictionary preserves insertion order (Python 3.7+); the value
for a key is replaced only on a strictly earlier date.  `list.sort` then
orders the survivors ascending by `date`. -/

/-- One step of building the `uniq` dictionary, keyed by `identifier`. -/
def uniqStep (uniq : List (String × EclipseEvent)) (e : EclipseEvent) :
    List (String × EclipseEvent) :=
  match uniq.find? (fun p => p.1 == e.identifier) with
  | none => uniq ++ [(e.identifier, e)]
  | some p =>
    if dateKey e.date < dateKey p.2.date then
      uniq.map (fun q => if q.1 == e.identifier then (q.1, e) else q)
    else uniq

/-- The full `uniq` dictionary built from the parsed event list. -/
def buildUniq (events : List EclipseEvent) : List (String × EclipseEvent) :=
  events.foldl uniqStep []

/-- Model of the dedup-and-sort tail of `_async_fetch_nasa`
(sensor.py lines 279-287): keep per identifier the earliest-dated event,
in insertion order, then sort ascending by `date`. -/
def dedupSort (events : List EclipseEvent) : List EclipseEvent :=
  ((buildUniq events).map (fun p => p.2)).mergeSort
    (fun a b => dateKey a.date ≤ dateKey b.date)

/-! ### TTL cache and fallback chain (sensor.py lines 141-144, 187-195,
337-356)

Wall-clock instants are modelled in minutes (`ℤ`); the 24-hour TTL is 1440
minutes.  The fetched-and-parsed result and the built-in fallback list are
parameters; `refreshData` is the data-source tier selection of
`_async_update_data`. -/

/-- Cache fields of the coordinator (`_cache_events`, `_cache_timestamp`). -/
structure CacheState where
  events : Option (List EclipseEvent)
  timestamp : Option ℤ
deriving DecidableEq

/-- Model of `_cache_set`: store a snapshot with capture timestamp `now`. -/
def cache_set (evs : List EclipseEvent) (now : ℤ) : CacheState :=
  ⟨some evs, some now⟩

/-- Model of `_cache_get`: serve the snapshot only when present, non-empty
(Python truthiness of the list) and at most 24 hours old; the timestamp is
not touched. -/
def cache_get (st : CacheState) (now : ℤ) : Option (List EclipseEvent) :=
  match st.events, st.timestamp with
  | some evs, some ts =>
    if evs ≠ [] ∧ now - ts ≤ 1440 then some evs else none
  | _, _ => none

/-- The `ECLIPSE_FALLBACK` constant of `const.py`, converted to events
exactly as `_async_update_data` does (lines 350-356). -/
def fallbackEvents : List EclipseEvent :=
  [⟨"2026-02-17", ⟨2026, 2, 17, 17, 0⟩, "Annular", none⟩,
   ⟨"2026-08-12", ⟨2026, 8, 12, 17, 0⟩, "Total", none⟩,
   ⟨"2027-08-02", ⟨2027, 8, 2, 10, 8⟩, "Total", none⟩]

/-- Model of the data-source tier selection of `_async_update_data`
(sensor.py lines 337-356): a non-empty fetch result is cached (with
timestamp `now`) and served; otherwise a fresh-enough cache snapshot is
served with the state unchanged; otherwise the built-in fallback list is
served.  Returns the new state and the served list. -/
def refreshData (st : CacheState) (now : ℤ) (fetched : List EclipseEvent) :
    CacheState × List EclipseEvent :=
  if fetched ≠ [] then (cache_set fetched now, fetched)
  else
    match cache_get st now with
    | some evs => (st, evs)
    | none => (st, fallbackEvents)

/-! ### Retrying fetcher (sensor.py lines 197-217)

The transport is an oracle giving each attempt's outcome.  The returned
pair is the result (`none` models the final `return None`; the function
catches every exception, so nothing propagates) together with the list of
back-off sleeps actually performed, in seconds. -/

/-- Outcome of one HTTP attempt: a transport-level exception, or a response
with a status code and body text. -/
inductive FetchOutcome where
  | failure : FetchOutcome
  | response : ℕ → String → FetchOutcome
deriving DecidableEq

/-- Body of a successful (HTTP 200) outcome, `none` otherwise; a non-200
response is re-raised by the source as `RuntimeError` and handled like any
other exception. -/
def okBody : FetchOutcome → Option String
  | FetchOutcome.response 200 b => some b
  | _ => none

/-- Recursive core of `_async_fetch_text`: `remaining` counts the attempts
left out of 3; `delay` is the current back-off (seconds, starting at 1 and
doubling after each failed attempt); `sleeps` records performed sleeps.
The source sleeps only when `attempt < 2`, i.e. when more than one attempt
remains. -/
def fetchTextAux (o : ℕ → FetchOutcome) :
    ℕ → ℕ → ℚ → List ℚ → Option String × List ℚ
  | 0, _, _, sleeps => (none, sleeps)
  | n + 1, attempt, delay, sleeps =>
    match okBody (o attempt) with
    | some body => (some body, sleeps)
    | none =>
      if 0 < n then fetchTextAux o n (attempt + 1) (delay * 2) (sleeps ++ [delay])
      else (none, sleeps)

/-- Model of `_async_fetch_text` over a transport oracle `o` (the outcome
of attempt `i` is `o i`). -/
def fetch_text (o : ℕ → FetchOutcome) : Option String × List ℚ :=
  fetchTextAux o 3 0 1 []

/-! ### Regional visibility resolver (sensor.py lines 306-335)

HTTP fetches and the two regex searches over fetched pages are oracles;
the URL resolution and all control flow are translated from the source. -/

/-- The `JSEX_INDEX_URL` constant of `const.py`. -/
def jsexIndexUrl : String := "https://eclipse.gsfc.nasa.gov/JSEX/JSEX-index.html"

/-- The base URL used for relative region links (sensor.py line 320). -/
def jsexBase : String := "https://eclipse.gsfc.nasa.gov/JSEX/"

/-- The `JSEX_REGION_LABELS` dictionary of `const.py`.  Note that
`Antarctica` and `Global` have no entry. -/
def jsexRegionLabels : List (String × String) :=
  [("Europe", "Europe"), ("Africa", "Africa"), ("Asia", "Asia and Asia Minor"),
   ("North America", "North America"), ("South America", "South America"),
   ("Oceania", "Southeast Asia, Australia & Oceana")]

/-- Python `href.lstrip("./")`: strip leading dot and slash characters. -/
def stripDotSlash (s : String) : String :=
  ⟨s.data.dropWhile (fun c => c == '.' || c == '/')⟩

/-- URL resolution for the region link (sensor.py lines 319-323): absolute
links are used as-is, relative ones are appended to the JSEX base. -/
def resolveRegionUrl (href : String) : String :=
  if href.startsWith ("http") then href else jsexBase ++ stripDotSlash href

/-- Model of `_async_visible_in_region`.  `fetch` is the HTTP oracle
(`none` models `_async_fetch_text` returning `None`); `findAnchor idx lab`
is the regex search for a hyperlink whose anchor text is `lab` in the index
page `idx`, returning the captured `href`; `matchesYMD`/`matchesDMY` are
the two date-order regex searches (`p1`/`p2`, sensor.py lines 333-334)
applied to the fetched region page. -/
def async_visible_in_region (region : String) (fetch : String → Option String)
    (findAnchor : String → String → Option String)
    (matchesYMD matchesDMY : String → Bool) : Bool :=
  if region == "Global" then true
  else
    match fetch jsexIndexUrl with
    | none => true
    | some indexText =>
      match assocGet jsexRegionLabels region with
      | none => true
      | some label =>
        match findAnchor indexText label with
        | none => true
        | some href =>
          match fetch (resolveRegionUrl href) with
          | none => true
          | some pageText => matchesYMD pageText || matchesDMY pageText

/-! ### Geometric overlap calculator (sensor.py lines 404-431 and 490-507)

The source hard-codes the literal `3.1415926535` for π — we keep it as the
exact rational it denotes — and uses the true `acos`/`sin`, modelled by
`Real.arccos`/`Real.sin`.  Angular radii of the Sun and Moon are the fixed
constants of lines 416-417 (495-496).  Both code sites share the same
two-circle lens-area expression, factored out as `lensArea`. -/

/-- The literal `3.1415926535` used by the source wherever π is needed. -/
noncomputable def piLit : ℝ := 3.1415926535

/-- The inner `clamp` helper (sensor.py lines 426-427, 502-503):
`max(-1.0, min(1.0, x))`. -/
noncomputable def clampUnit (x : ℝ) : ℝ := max (-1) (min 1 x)

/-- Python `round(x, 1)`: the value rounded to one decimal place.
(Python rounds ties to even; the two models agree except at exact
midpoints `x = k/20`, which never arise in the statements below.) -/
noncomputable def roundTo1 (x : ℝ) : ℝ := ((round (10 * x) : ℤ) : ℝ) / 10

/-- The shared partial-overlap lens area (sensor.py lines 428-430 and
504-506): `0.5 * (R²(α - sin α) + r²(β - sin β))` with
`α = 2 acos(clamp((d² + R² - r²)/(2dR)))` and
`β = 2 acos(clamp((d² + r² - R²)/(2dr)))`. -/
noncomputable def lensArea (d R r : ℝ) : ℝ :=
  let alpha := 2 * Real.arccos (clampUnit ((d * d + R * R - r * r) / (2 * d * R)))
  let beta := 2 * Real.arccos (clampUnit ((d * d + r * r - R * R) / (2 * d * r)))
  0.5 * (R * R * (alpha - Real.sin alpha) + r * r * (beta - Real.sin beta))

/-- The overlap/coverage computation of `async_calculate_coverage_percent`
(sensor.py lines 418-431) as a function of the angular separation `d` and
the two angular radii (the spec's `overlapPercent(separationRadians,
sunRadiusRadians, moonRadiusRadians)`; the source instantiates the radii
with `sun_radius_rad` and `moon_radius_rad`).  The result is rounded to
one decimal place. -/
noncomputable def overlapPercent (d R r : ℝ) : ℝ :=
  if R + r ≤ d then 0
  else if d ≤ |R - r| then
    roundTo1 (100 * (piLit * (min R r) ^ 2) / (piLit * R ^ 2))
  else roundTo1 (100 * lensArea d R r / (piLit * R ^ 2))

/-- The inner `coverage` closure of `async_find_contact_times`
(sensor.py lines 490-507): identical branch structure, but the
full-containment branch divides by `R²` directly and the result is not
rounded. -/
noncomputable def coverageRaw (d R r : ℝ) : ℝ :=
  if R + r ≤ d then 0
  else if d ≤ |R - r| then 100 * (min R r) ^ 2 / R ^ 2
  else 100 * lensArea d R r / (piLit * R ^ 2)

/-- The Sun's angular radius constant: `(16.0 / 60.0) * (3.1415926535 / 180.0)`. -/
noncomputable def sun_radius_rad : ℝ := 16.0 / 60.0 * (piLit / 180.0)

/-- The Moon's angular radius constant: `(15.5 / 60.0) * (3.1415926535 / 180.0)`. -/
noncomputable def moon_radius_rad : ℝ := 15.5 / 60.0 * (piLit / 180.0)

/-! ### Local-maximum search (sensor.py lines 433-475)

Instants are whole minutes (`ℤ`): the source's window and steps are 180,
5, 10 and 1 minutes.  The ephemeris is an abstract separation function
`sep : ℤ → ℝ`.  The source tracks `best_dt`/`best_sep` jointly with a
strict-improvement test; since `best_sep = sep best_dt` throughout, the
fold below carries only `best_dt`. -/

open Classical in
/-- One scanning pass: fold the candidate instants, moving to a candidate
exactly when its separation strictly improves on the current best. -/
noncomputable def scanMin (sep : ℤ → ℝ) (init : ℤ) (cands : List ℤ) : ℤ :=
  cands.foldl (fun best dt => if sep dt < sep best then dt else best) init

/-- The coarse 5-minute grid: `approx - 180 + 5 i` for `i ∈ [0, 72]`
(the source computes `num = (end - start) / step + 1 = 73`). -/
def coarseGrid (approx : ℤ) : List ℤ :=
  (List.range 73).map (fun i : ℕ => approx - 180 + 5 * (i : ℤ))

/-- The refining 1-minute grid: `center - 10 + i` for `i ∈ [0, 20]`
(`num = 21`). -/
def refineGrid (center : ℤ) : List ℤ :=
  (List.range 21).map (fun i : ℕ => center - 10 + (i : ℤ))

/-- Model of `async_find_local_maximum` with an ephemeris present: coarse
scan seeded with `approx` itself, refine scan seeded with the coarse
minimizer, then the rounded coverage at the final minimizer. -/
noncomputable def async_find_local_maximum (sep : ℤ → ℝ) (approx : ℤ) :
    ℤ × ℝ :=
  let coarse := scanMin sep approx (coarseGrid approx)
  let best := scanMin sep coarse (refineGrid coarse)
  (best, overlapPercent (sep best) sun_radius_rad moon_radius_rad)

/-! ### Contact-time search (sensor.py lines 477-525)

The two `while` loops step by 2 minutes with a strict 4-hour (240-minute)
limit and a strict `coverage(t) > 0.1` test; they terminate after at most
120 steps because of the limit gate, so a structural fuel of 121 makes the
recursion total without changing any reachable behaviour. -/

open Classical in
/-- The backward scan loop (`while t > limit and coverage(t) > 0.1`):
`start` is the last instant that passed the test. -/
noncomputable def scanBackAux (cov : ℤ → ℝ) (limit : ℤ) :
    ℕ → ℤ → ℤ → ℤ
  | 0, _, start => start
  | fuel + 1, t, start =>
    if limit < t ∧ (0.1 : ℝ) < cov t then scanBackAux cov limit fuel (t - 2) t
    else start

open Classical in
/-- The forward scan loop (`while t < limit and coverage(t) > 0.1`). -/
noncomputable def scanFwdAux (cov : ℤ → ℝ) (limit : ℤ) :
    ℕ → ℤ → ℤ → ℤ
  | 0, _, e => e
  | fuel + 1, t, e =>
    if t < limit ∧ (0.1 : ℝ) < cov t then scanFwdAux cov limit fuel (t + 2) t
    else e

/-- The occlusion recomputed during the contact scan: the unrounded
`coverage` closure applied to the separation at `t`. -/
noncomputable def contactCov (sep : ℤ → ℝ) (t : ℤ) : ℝ :=
  coverageRaw (sep t) sun_radius_rad moon_radius_rad

open Classical in
/-- Model of `async_find_contact_times` with an ephemeris present:
`None` when the local maximum's (rounded) coverage is not positive,
otherwise the backward/forward scan results from the local-maximum
instant. -/
noncomputable def async_find_contact_times (sep : ℤ → ℝ) (approx : ℤ) :
    Option (ℤ × ℤ) :=
  let lm := async_find_local_maximum sep approx
  if lm.2 ≤ 0 then none
  else
    some (scanBackAux (contactCov sep) (lm.1 - 240) 121 lm.1 lm.1,
          scanFwdAux (contactCov sep) (lm.1 + 240) 121 lm.1 lm.1)

/-! ### Batch visibility evaluator (sensor.py lines 362-389)

`future` is scanned in slices of 25; a whole batch's coverages are
computed by one `asyncio.gather` before any result is inspected, so the
evaluation granularity is the batch.  The per-event coverage oracle
`cov : α → ℝ` stands for `local_max_cov` (exceptions inside it already
coerce to `0.0` in the source).  The second component returned below is
the list of batches that were actually evaluated. -/

/-- Batches of 25, as produced by `future[start : start + 25]` for
`start = 0, 25, 50, ...`. -/
def chunks25 : List α → List (List α)
  | [] => []
  | x :: xs => ((x :: xs).take 25) :: chunks25 ((x :: xs).drop 25)
  termination_by l => l.length
  decreasing_by simp [List.length_drop]; omega

open Classical in
/-- Core of the batch scan: append each batch's visible events (coverage
strictly positive) and return `visible[:desired]` as soon as `desired`
many have been accumulated, without touching later batches. -/
noncomputable def selectVisibleAux (cov : α → ℝ) (desired : ℕ) :
    List (List α) → List α → List α × List (List α)
  | [], acc => (acc.take desired, [])
  | b :: bs, acc =>
    let acc2 := acc ++ b.filter (fun e => decide (0 < cov e))
    if desired ≤ acc2.length then (acc2.take desired, [b])
    else
      let rest := selectVisibleAux cov desired bs acc2
      (rest.1, b :: rest.2)

/-- Model of the ephemeris-backed selection loop of `_async_update_data`
(sensor.py lines 375-389): the visible events served, together with the
batches whose events were evaluated. -/
noncomputable def selectVisible (cov : α → ℝ) (future : List α)
    (desired : ℕ) : List α × List (List α) :=
  selectVisibleAux cov desired (chunks25 future) []

/-! ## Claim C6: retrying fetcher -/

/-- Claim C6: for every transport oracle, `_async_fetch_text` makes up to
3 attempts with exponential backoff starting at 1 second and doubling
after each failed attempt (a non-200 response or a transport exception is
a failed attempt); if all three attempts fail it returns `None` — the
function is total, so nothing propagates to the caller — sleeping 1s then
2s along the way; if attempt `i` is the first success its body is returned
after exactly the first `i` back-off sleeps. -/
theorem C6_fetch_text_retries (o : ℕ → FetchOutcome) :
    ((∀ i, i < 3 → okBody (o i) = none) → fetch_text o = (none, [1, 2])) ∧
    (∀ i b, i < 3 → okBody (o i) = some b → (∀ j, j < i → okBody (o j) = none) →
      fetch_text o = (some b, List.take i [1, 2])) := by
  constructor
  · intro hfail
    have h0 := hfail 0 (by norm_num)
    have h1 := hfail 1 (by norm_num)
    have h2 := hfail 2 (by norm_num)
    simp [fetch_text, fetchTextAux, h0, h1, h2]
  · intro i b hi hok hprev
    interval_cases i
    · simp [fetch_text, fetchTextAux, hok]
    · have h0 := hprev 0 (by norm_num)
      simp [fetch_text, fetchTextAux, h0, hok]
    · have h0 := hprev 0 (by norm_num)
      have h1 := hprev 1 (by norm_num)
      simp [fetch_text, fetchTextAux, h0, h1, hok]

/-- Witness for C6: a transport that fails once and then succeeds returns
the body of the second attempt after a single 1-second sleep. -/
theorem C6_fetch_text_retries_witness :
    fetch_text (fun i => if i = 1 then FetchOutcome.response 200 ("ok")
      else FetchOutcome.failure) = (some ("ok"), [1]) := by
  have h := (C6_fetch_text_retries
      (fun i => if i = 1 then FetchOutcome.response 200 ("ok")
        else FetchOutcome.failure)).2 1 ("ok") (by norm_num) (by rfl)
      (by intro j hj; interval_cases j; rfl)
  simpa using h

/-! ## Claim C8: regional visibility resolver -/

/-- Claim C8: `_async_visible_in_region` answers `true` whenever the
region is Global, the index page fetch fails, the region has no configured
label (true of `Antarctica`), no anchor with the label's text is found, or
the region page fetch fails; only when the region page is fetched does the
result become the disjunction of the two date-order searches
("Year Month Day" / "Day Month Year"). -/
theorem C8_region_resolver_lenient (region : String)
    (fetch : String → Option String)
    (findAnchor : String → String → Option String)
    (matchesYMD matchesDMY : String → Bool) :
    (region = "Global" →
      async_visible_in_region region fetch findAnchor matchesYMD matchesDMY = true) ∧
    (fetch jsexIndexUrl = none →
      async_visible_in_region region fetch findAnchor matchesYMD matchesDMY = true) ∧
    (assocGet jsexRegionLabels region = none →
      async_visible_in_region region fetch findAnchor matchesYMD matchesDMY = true) ∧
    (∀ idx label, fetch jsexIndexUrl = some idx →
      assocGet jsexRegionLabels region = some label → findAnchor idx label = none →
      async_visible_in_region region fetch findAnchor matchesYMD matchesDMY = true) ∧
    (∀ idx label href, fetch jsexIndexUrl = some idx →
      assocGet jsexRegionLabels region = some label → findAnchor idx label = some href →
      fetch (resolveRegionUrl href) = none →
      async_visible_in_region region fetch findAnchor matchesYMD matchesDMY = true) ∧
    (∀ idx label href page, region ≠ "Global" → fetch jsexIndexUrl = some idx →
      assocGet jsexRegionLabels region = some label → findAnchor idx label = some href →
      fetch (resolveRegionUrl href) = some page →
      async_visible_in_region region fetch findAnchor matchesYMD matchesDMY =
        (matchesYMD page || matchesDMY page)) := by
  refine ⟨fun h => ?_, fun h => ?_, fun h => ?_, fun idx label h1 h2 h3 => ?_,
    fun idx label href h1 h2 h3 h4 => ?_,
    fun idx label href page hng h1 h2 h3 h4 => ?_⟩
  · simp [async_visible_in_region, h]
  · simp [async_visible_in_region, h]
  · cases hf : fetch jsexIndexUrl <;> simp [async_visible_in_region, hf, h]
  · simp [async_visible_in_region, h1, h2, h3]
  · simp [async_visible_in_region, h1, h2, h3, h4]
  · simp [async_visible_in_region, h1, h2, h3, h4, hng]

/-- Witness for C8: region `Antarctica` has no configured label in
`JSEX_REGION_LABELS`, so the resolver is lenient even with all fetches
succeeding. -/
theorem C8_region_resolver_lenient_witness :
    async_visible_in_region ("Antarctica") (fun _ => some ("page"))
      (fun _ _ => some ("link.html")) (fun _ => false) (fun _ => false) = true := by
  exact (C8_region_resolver_lenient ("Antarctica") (fun _ => some ("page"))
    (fun _ _ => some ("link.html")) (fun _ => false) (fun _ => false)).2.2.1 (by rfl)

/-! ## Claim C4: TTL cache and fallback chain -/

/-- Claim C4: a non-empty fetch result becomes the new snapshot with
capture timestamp `now` and is served; on an empty fetch result a cached
snapshot of age at most 24 hours is served with the state — in particular
its timestamp — unchanged (so a snapshot captured at `T` is still served
at `T + 23h59m` but no longer at `T + 25h`); with no usable snapshot the
built-in fallback list is served. -/
theorem C4_cache_fallback_chain :
    (∀ st now fetched, fetched ≠ [] →
      refreshData st now fetched = (cache_set fetched now, fetched)) ∧
    (∀ evs T now, evs ≠ [] → now - T ≤ 1440 →
      refreshData ⟨some evs, some T⟩ now [] = (⟨some evs, some T⟩, evs)) ∧
    (∀ evs T, evs ≠ [] →
      refreshData ⟨some evs, some T⟩ (T + 1439) [] = (⟨some evs, some T⟩, evs)) ∧
    (∀ evs T, refreshData ⟨some evs, some T⟩ (T + 1500) [] =
      (⟨some evs, some T⟩, fallbackEvents)) ∧
    (∀ st now, cache_get st now = none →
      refreshData st now [] = (st, fallbackEvents)) := by
  refine ⟨fun st now fetched h => ?_, fun evs T now h1 h2 => ?_,
    fun evs T h => ?_, fun evs T => ?_, fun st now h => ?_⟩
  · simp [refreshData, h]
  · simp [refreshData, cache_get, h1, h2]
  · simp [refreshData, cache_get, h]
  · simp [refreshData, cache_get]
  · simp [refreshData, h]

/-- Witness for C4: a concrete one-event snapshot captured at minute 0 is
served unchanged at minute 1439 when the fetch comes back empty. -/
theorem C4_cache_fallback_chain_witness :
    refreshData ⟨some [⟨"2030-01-01", ⟨2030, 1, 1, 0, 0⟩, "Total", none⟩], some 0⟩
        1439 [] =
      (⟨some [⟨"2030-01-01", ⟨2030, 1, 1, 0, 0⟩, "Total", none⟩], some 0⟩,
        [⟨"2030-01-01", ⟨2030, 1, 1, 0, 0⟩, "Total", none⟩]) := by
  have h := C4_cache_fallback_chain.2.2.1
    [(⟨"2030-01-01", ⟨2030, 1, 1, 0, 0⟩, "Total", none⟩ : EclipseEvent)] 0
    (by simp)
  simpa using h

/-! ## Claim C10: rows with an invalid captured time -/

/-- Helper: every month number stored in `month_map` is between 1 and 12. -/
theorem month_map_range : ∀ p ∈ month_map, 1 ≤ p.2 ∧ p.2 ≤ 12 := by decide

/-- Claim C10: if a row matches the extraction pattern but its captured
`HH:MM` is not a valid time of day (hour above 23 or minute above 59), the
parser does not skip the row: the first `datetime` call raises, the
`except` branch constructs midnight of the same calendar date, and an
event dated `00:00` on that day is produced (assuming the calendar date
itself is valid, as it is for genuine catalog rows). -/
theorem C10_invalid_time_midnight (year : ℕ) (monTxt : String) (day : ℕ)
    (typRaw : String) (hh mi : ℕ) (mo : ℕ)
    (hmo : assocGet month_map (pyTitle monTxt) = some mo)
    (hd1 : 1 ≤ day) (hd2 : day ≤ daysInMonth year mo)
    (hbad : 23 < hh ∨ 59 < mi) :
    processRow year monTxt day typRaw hh mi =
      some ⟨identFor year mo day, ⟨year, mo, day, 0, 0⟩, normalizeType typRaw, none⟩ := by
  have hrange : 1 ≤ mo ∧ mo ≤ 12 := by
    cases hfind : List.find? (fun p => p.1 == pyTitle monTxt) month_map with
    | none => simp [assocGet, hfind] at hmo
    | some p =>
      have hp : p ∈ month_map := List.mem_of_find?_eq_some hfind
      have hpm : p.2 = mo := by
        simpa [assocGet, hfind] using hmo
      exact hpm ▸ month_map_range p hp
  have hne : mkDatetime year mo day hh mi = none := by
    unfold mkDatetime
    rw [if_neg]
    rintro ⟨-, -, -, -, h23, h59⟩
    rcases hbad with h | h <;> omega
  have hmid : mkDatetime year mo day 0 0 = some ⟨year, mo, day, 0, 0⟩ := by
    unfold mkDatetime
    rw [if_pos]
    exact ⟨hrange.1, hrange.2, hd1, hd2, by omega, by omega⟩
  simp [processRow, hmo, hne, hmid]

/-- Witness for C10: a row for 2026 Aug 12 with the nonsense time `99:30`
still yields an event, dated midnight of 2026-08-12. -/
theorem C10_invalid_time_midnight_witness :
    processRow 2026 ("Aug") 12 ("T") 99 30 =
      some ⟨"2026-08-12", ⟨2026, 8, 12, 0, 0⟩, "Total", none⟩ := by
  have h := C10_invalid_time_midnight 2026 ("Aug") 12 ("T") 99 30 8
    (by decide) (by decide) (by decide) (Or.inl (by decide))
  exact h.trans (by decide)

/-! ## Claim C5: batch visibility evaluator -/

/-- Concatenating the batches gives back the future-event list. -/
theorem chunks25_flatten (l : List α) : (chunks25 l).flatten = l := by
  induction l using chunks25.induct with
  | case1 => simp [chunks25]
  | case2 x xs ih =>
    rw [chunks25]
    simp only [List.flatten_cons, ih, List.take_append_drop]

/-- The served events are always the first `desired` coverage-positive
events of the remaining batches, regardless of where the scan stops. -/
theorem selectVisibleAux_fst (cov : α → ℝ) (desired : ℕ) (bs : List (List α))
    (acc : List α) :
    (selectVisibleAux cov desired bs acc).1 =
      (acc ++ bs.flatten.filter (fun e => decide (0 < cov e))).take desired := by
  induction bs generalizing acc with
  | nil => simp [selectVisibleAux]
  | cons b bs ih =>
    by_cases h : desired ≤ (acc ++ b.filter (fun e => decide (0 < cov e))).length
    · simp only [selectVisibleAux, h, if_pos]
      rw [List.flatten_cons, List.filter_append, ← List.append_assoc,
        List.take_append_of_le_length h]
    · simp only [selectVisibleAux, h, if_neg, not_false_iff]
      rw [ih]
      simp [List.filter_append]

/-- Unfolding equation for one batch step of the scan. -/
theorem selectVisibleAux_cons (cov : α → ℝ) (desired : ℕ) (b : List α)
    (bs : List (List α)) (acc : List α) :
    selectVisibleAux cov desired (b :: bs) acc =
      if desired ≤ (acc ++ b.filter (fun e => decide (0 < cov e))).length then
        ((acc ++ b.filter (fun e => decide (0 < cov e))).take desired, [b])
      else
        ((selectVisibleAux cov desired bs
            (acc ++ b.filter (fun e => decide (0 < cov e)))).1,
          b :: (selectVisibleAux cov desired bs
            (acc ++ b.filter (fun e => decide (0 < cov e)))).2) := rfl

/-- The evaluated batches always form a prefix of the batch list. -/
theorem selectVisibleAux_snd_prefix (cov : α → ℝ) (desired : ℕ)
    (bs : List (List α)) (acc : List α) :
    ∃ k, (selectVisibleAux cov desired bs acc).2 = bs.take k := by
  induction bs generalizing acc with
  | nil => exact ⟨0, by simp [selectVisibleAux]⟩
  | cons b bs ih =>
    rw [selectVisibleAux_cons]
    by_cases h : desired ≤ (acc ++ b.filter (fun e => decide (0 < cov e))).length
    · exact ⟨1, by rw [if_pos h]; simp⟩
    · obtain ⟨k, hk⟩ := ih (acc ++ b.filter (fun e => decide (0 < cov e)))
      exact ⟨k + 1, by rw [if_neg h]; simpa [List.take_succ_cons] using hk⟩

/-- Early exit: once the first `j` batches (plus the accumulator) already
hold `desired` visible events, no batch after the `j`-th is evaluated. -/
theorem selectVisibleAux_snd_early (cov : α → ℝ) (desired : ℕ)
    (bs : List (List α)) (acc : List α) (j : ℕ) (hj : 1 ≤ j)
    (h : desired ≤
      (acc ++ (bs.take j).flatten.filter (fun e => decide (0 < cov e))).length) :
    (selectVisibleAux cov desired bs acc).2.length ≤ j := by
  induction bs generalizing acc j with
  | nil => simp [selectVisibleAux]
  | cons b bs ih =>
    rw [selectVisibleAux_cons]
    by_cases hstop : desired ≤ (acc ++ b.filter (fun e => decide (0 < cov e))).length
    · rw [if_pos hstop]
      simpa using hj
    · rw [if_neg hstop]
      rcases Nat.exists_eq_add_of_le hj with ⟨j1, rfl⟩
      have htake : (b :: bs).take (1 + j1) = b :: bs.take j1 := by
        rw [Nat.add_comm 1 j1, List.take_succ_cons]
      rw [htake] at h
      rcases Nat.eq_zero_or_pos j1 with rfl | hj1
      · exfalso
        apply hstop
        simpa using h
      · have h2 : desired ≤ ((acc ++ b.filter (fun e => decide (0 < cov e))) ++
            (bs.take j1).flatten.filter (fun e => decide (0 < cov e))).length := by
          simp only [List.flatten_cons, List.filter_append, List.length_append] at h ⊢
          omega
        have h3 := ih (acc ++ b.filter (fun e => decide (0 < cov e))) j1 hj1 h2
        simp only [List.length_cons]
        omega

/-- Claim C5: with an ephemeris available the future events are processed
in batches of 25; an event counts as visible exactly when its local-maximum
coverage is positive; the served sequence is the first `desired` visible
events (hence has length at most `desired`); the evaluated batches form a
prefix of the batch list; and as soon as the first `j ≥ 1` batches contain
`desired` visible events, no event of any later batch is evaluated. -/
theorem C5_batch_visibility (cov : α → ℝ) (future : List α) (desired : ℕ) :
    (selectVisible cov future desired).1 =
      (future.filter (fun e => decide (0 < cov e))).take desired ∧
    (selectVisible cov future desired).1.length ≤ desired ∧
    (∃ k, (selectVisible cov future desired).2 = (chunks25 future).take k) ∧
    (∀ j, 1 ≤ j →
      desired ≤
        (((chunks25 future).take j).flatten.filter
          (fun e => decide (0 < cov e))).length →
      (selectVisible cov future desired).2.length ≤ j) := by
  have h1 : (selectVisible cov future desired).1 =
      (future.filter (fun e => decide (0 < cov e))).take desired := by
    have := selectVisibleAux_fst cov desired (chunks25 future) []
    simpa [selectVisible, chunks25_flatten] using this
  refine ⟨h1, ?_, ?_, ?_⟩
  · rw [h1]
    exact List.length_take_le _ _
  · exact selectVisibleAux_snd_prefix cov desired (chunks25 future) []
  · intro j hj h
    exact selectVisibleAux_snd_early cov desired (chunks25 future) [] j hj
      (by simpa using h)

open Classical in
/-- Witness for C5: a single future event with coverage 1 and
`desired = 1`: the first batch suffices and at most one batch is
evaluated. -/
theorem C5_batch_visibility_witness :
    (selectVisible (fun _ : ℕ => (1 : ℝ)) [0] 1).2.length ≤ 1 := by
  apply (C5_batch_visibility (fun _ : ℕ => (1 : ℝ)) [0] 1).2.2.2 1 le_rfl
  have hd : (decide ((0 : ℝ) < 1)) = true := decide_eq_true (by norm_num)
  simp [chunks25, List.filter, hd]

/-! ## Claim C7: deduplication and sorting -/

/-- Invariant of the `uniq` dictionary while the parsed events are folded
in: every entry is keyed by its event's identifier, holds an
earliest-dated event of its group among the consumed events, every
consumed identifier has an entry, and keys are pairwise distinct. -/
def UniqInv (consumed : List EclipseEvent)
    (uniq : List (String × EclipseEvent)) : Prop :=
  (∀ p ∈ uniq, p.2.identifier = p.1 ∧ p.2 ∈ consumed ∧
    ∀ x ∈ consumed, x.identifier = p.1 → dateKey p.2.date ≤ dateKey x.date) ∧
  (∀ x ∈ consumed, ∃ p ∈ uniq, p.1 = x.identifier) ∧
  (uniq.map Prod.fst).Nodup

/-- One dictionary update preserves the invariant. -/
theorem uniqStep_inv {consumed : List EclipseEvent}
    {uniq : List (String × EclipseEvent)} {e : EclipseEvent}
    (h : UniqInv consumed uniq) : UniqInv (consumed ++ [e]) (uniqStep uniq e) := by
  obtain ⟨hval, hcov, hnd⟩ := h
  cases hfind : uniq.find? (fun p => p.1 == e.identifier) with
  | none =>
    have hstep : uniqStep uniq e = uniq ++ [(e.identifier, e)] := by
      simp only [uniqStep, hfind]
    rw [hstep]
    have hno : ∀ p ∈ uniq, p.1 ≠ e.identifier := by
      intro p hp
      have := List.find?_eq_none.mp hfind p hp
      simpa using this
    refine ⟨?_, ?_, ?_⟩
    · intro p hp
      rcases List.mem_append.mp hp with hp1 | hp1
      · obtain ⟨h1, h2, h3⟩ := hval p hp1
        refine ⟨h1, List.mem_append_left _ h2, ?_⟩
        intro x hx hxid
        rcases List.mem_append.mp hx with hx1 | hx1
        · exact h3 x hx1 hxid
        · have hxe : x = e := by simpa using hx1
          subst hxe
          exact absurd hxid.symm (hno p hp1)
      · have hpe : p = (e.identifier, e) := by simpa using hp1
        subst hpe
        refine ⟨rfl, List.mem_append_right _ (by simp), ?_⟩
        intro x hx hxid
        rcases List.mem_append.mp hx with hx1 | hx1
        · obtain ⟨q, hq, hqk⟩ := hcov x hx1
          exact absurd (hqk.trans hxid) (hno q hq)
        · have hxe : x = e := by simpa using hx1
          subst hxe
          exact le_rfl
    · intro x hx
      rcases List.mem_append.mp hx with hx1 | hx1
      · obtain ⟨q, hq, hqk⟩ := hcov x hx1
        exact ⟨q, List.mem_append_left _ hq, hqk⟩
      · have hxe : x = e := by simpa using hx1
        exact ⟨(e.identifier, e), List.mem_append_right _ (by simp),
          by rw [hxe]⟩
    · rw [List.map_append]
      refine hnd.append (by simp) ?_
      intro a ha hb
      have hbe : a = e.identifier := by simpa using hb
      subst hbe
      obtain ⟨p, hp, hpk⟩ := List.mem_map.mp ha
      exact hno p hp hpk
  | some p0 =>
    have hp0mem : p0 ∈ uniq := List.mem_of_find?_eq_some hfind
    have hp0key : p0.1 = e.identifier := by
      simpa using List.find?_some hfind
    have hkeyuniq : ∀ q ∈ uniq, q.1 = e.identifier → q = p0 := by
      intro q hq hqk
      exact List.inj_on_of_nodup_map hnd hq hp0mem (hqk.trans hp0key.symm)
    by_cases hdate : dateKey e.date < dateKey p0.2.date
    · have hstep : uniqStep uniq e =
          uniq.map (fun q => if q.1 == e.identifier then (q.1, e) else q) := by
        simp only [uniqStep, hfind, if_pos hdate]
      rw [hstep]
      have hkeys : (uniq.map
            (fun q => if q.1 == e.identifier then (q.1, e) else q)).map Prod.fst
          = uniq.map Prod.fst := by
        rw [List.map_map]
        apply List.map_congr_left
        intro q hq
        by_cases hh : q.1 = e.identifier <;> simp [hh]
      refine ⟨?_, ?_, by rw [hkeys]; exact hnd⟩
      · intro p hp
        obtain ⟨q, hq, hqe⟩ := List.mem_map.mp hp
        by_cases hqk : q.1 = e.identifier
        · have heq : p = (q.1, e) := by
            rw [← hqe]; simp [hqk]
          subst heq
          have hq0 : q = p0 := hkeyuniq q hq hqk
          refine ⟨hqk.symm, List.mem_append_right _ (by simp), ?_⟩
          intro x hx hxid
          rcases List.mem_append.mp hx with hx1 | hx1
          · obtain ⟨-, -, h3⟩ := hval p0 hp0mem
            have hxid0 : x.identifier = p0.1 := by rw [← hq0]; exact hxid
            exact le_trans (le_of_lt hdate) (h3 x hx1 hxid0)
          · have hxe : x = e := by simpa using hx1
            subst hxe
            exact le_rfl
        · have heq : p = q := by rw [← hqe]; simp [hqk]
          subst heq
          obtain ⟨h1, h2, h3⟩ := hval p hq
          refine ⟨h1, List.mem_append_left _ h2, ?_⟩
          intro x hx hxid
          rcases List.mem_append.mp hx with hx1 | hx1
          · exact h3 x hx1 hxid
          · have hxe : x = e := by simpa using hx1
            subst hxe
            exact absurd hxid.symm hqk
      · intro x hx
        rcases List.mem_append.mp hx with hx1 | hx1
        · obtain ⟨q, hq, hqk⟩ := hcov x hx1
          refine ⟨if q.1 == e.identifier then (q.1, e) else q,
            List.mem_map_of_mem _ hq, ?_⟩
          have hfst : (if q.1 == e.identifier then (q.1, e) else q).1 = q.1 := by
            by_cases hh : q.1 = e.identifier <;> simp [hh]
          rw [hfst]
          exact hqk
        · have hxe : x = e := by simpa using hx1
          refine ⟨(p0.1, e), ?_,
            hp0key.trans (congrArg EclipseEvent.identifier hxe).symm⟩
          have himg : (if p0.1 == e.identifier then (p0.1, e) else p0)
              = (p0.1, e) := by simp [hp0key]
          rw [← himg]
          exact List.mem_map_of_mem _ hp0mem
    · have hstep : uniqStep uniq e = uniq := by
        simp only [uniqStep, hfind, if_neg hdate]
      rw [hstep]
      refine ⟨?_, ?_, hnd⟩
      · intro p hp
        obtain ⟨h1, h2, h3⟩ := hval p hp
        refine ⟨h1, List.mem_append_left _ h2, ?_⟩
        intro x hx hxid
        rcases List.mem_append.mp hx with hx1 | hx1
        · exact h3 x hx1 hxid
        · have hxe : x = e := by simpa using hx1
          have hp0 : p = p0 := hkeyuniq p hp
            (hxid.symm.trans (congrArg EclipseEvent.identifier hxe))
          rw [hxe, hp0]
          exact le_of_not_lt hdate
      · intro x hx
        rcases List.mem_append.mp hx with hx1 | hx1
        · obtain ⟨q, hq, hqk⟩ := hcov x hx1
          exact ⟨q, hq, hqk⟩
        · have hxe : x = e := by simpa using hx1
          subst hxe
          exact ⟨p0, hp0mem, hp0key⟩

/-- Folding a batch of events preserves the invariant. -/
theorem foldl_uniqStep_inv (rest : List EclipseEvent) :
    ∀ (consumed : List EclipseEvent) (acc : List (String × EclipseEvent)),
      UniqInv consumed acc → UniqInv (consumed ++ rest) (rest.foldl uniqStep acc) := by
  induction rest with
  | nil =>
    intro consumed acc h
    simpa using h
  | cons r rest ih =>
    intro consumed acc h
    have h3 := ih (consumed ++ [r]) (uniqStep acc r) (uniqStep_inv h)
    simpa [List.append_assoc] using h3

/-- The finished dictionary satisfies the invariant over all events. -/
theorem buildUniq_inv (events : List EclipseEvent) :
    UniqInv events (buildUniq events) := by
  have h0 : UniqInv [] [] := ⟨by simp, by simp, by simp⟩
  have := foldl_uniqStep_inv events [] [] h0
  simpa [buildUniq] using this

/-- Identifier of a parsed row depends only on the calendar-date captures. -/
theorem processRow_identifier (year : ℕ) (monTxt : String) (day : ℕ)
    (typRaw : String) (hh mi : ℕ) (e : EclipseEvent)
    (h : processRow year monTxt day typRaw hh mi = some e) :
    ∃ mo, assocGet month_map (pyTitle monTxt) = some mo ∧
      e.identifier = identFor year mo day := by
  unfold processRow at h
  cases hmo : assocGet month_map (pyTitle monTxt) with
  | none =>
    simp only [hmo] at h
    exact Option.noConfusion h
  | some mo =>
    simp only [hmo] at h
    refine ⟨mo, rfl, ?_⟩
    cases h1 : mkDatetime year mo day hh mi with
    | some dt =>
      simp only [h1] at h
      have he : e = ⟨identFor year mo day, dt, normalizeType typRaw, none⟩ := by
        simpa using h.symm
      rw [he]
    | none =>
      simp only [h1] at h
      cases h2 : mkDatetime year mo day 0 0 with
      | some dt =>
        simp only [h2] at h
        have he : e = ⟨identFor year mo day, dt, normalizeType typRaw, none⟩ := by
          simpa using h.symm
        rw [he]
      | none =>
        simp only [h2] at h
        exact Option.noConfusion h

/-- Claim C7: after parsing, events sharing an identifier are merged
keeping an earliest-dated member of the group, every input identifier
survives exactly once, and the survivors are returned sorted ascending by
date; the identifier itself is determined by the row's calendar-date
captures alone, so same-day rows with different times collide. -/
theorem C7_dedup_and_sort (events : List EclipseEvent) :
    (dedupSort events).Pairwise (fun a b => dateKey a.date ≤ dateKey b.date) ∧
    (∀ e ∈ dedupSort events, e ∈ events ∧
      ∀ x ∈ events, x.identifier = e.identifier →
        dateKey e.date ≤ dateKey x.date) ∧
    (∀ x ∈ events, ∃ e ∈ dedupSort events, e.identifier = x.identifier) ∧
    ((dedupSort events).map (fun e => e.identifier)).Nodup ∧
    (∀ year monTxt day t1 t2 hh1 mi1 hh2 mi2 e1 e2,
      processRow year monTxt day t1 hh1 mi1 = some e1 →
      processRow year monTxt day t2 hh2 mi2 = some e2 →
      e1.identifier = e2.identifier) := by
  obtain ⟨hval, hcov, hnd⟩ := buildUniq_inv events
  have hperm : (dedupSort events).Perm ((buildUniq events).map (fun p => p.2)) :=
    List.mergeSort_perm _ _
  refine ⟨?_, ?_, ?_, ?_, ?_⟩
  · have hs : ((((buildUniq events).map (fun p => p.2)).mergeSort
        (fun a b => decide (dateKey a.date ≤ dateKey b.date))).Pairwise
        (fun a b => decide (dateKey a.date ≤ dateKey b.date) = true)) :=
      List.sorted_mergeSort
        (fun (a b c : EclipseEvent)
            (h1 : decide (dateKey a.date ≤ dateKey b.date) = true)
            (h2 : decide (dateKey b.date ≤ dateKey c.date) = true) =>
          decide_eq_true
            (le_trans (of_decide_eq_true h1) (of_decide_eq_true h2)))
        (fun a b => by
          rcases Nat.le_total (dateKey a.date) (dateKey b.date) with h | h <;>
            simp [h])
        ((buildUniq events).map (fun p => p.2))
    exact hs.imp (fun h => of_decide_eq_true h)
  · intro e he
    have he2 : e ∈ (buildUniq events).map (fun p => p.2) := hperm.mem_iff.mp he
    obtain ⟨p, hp, hpe⟩ := List.mem_map.mp he2
    obtain ⟨h1, h2, h3⟩ := hval p hp
    subst hpe
    refine ⟨h2, ?_⟩
    intro x hx hxid
    exact h3 x hx (hxid.trans h1)
  · intro x hx
    obtain ⟨p, hp, hpk⟩ := hcov x hx
    refine ⟨p.2, ?_, ?_⟩
    · exact hperm.mem_iff.mpr (List.mem_map_of_mem _ hp)
    · exact ((hval p hp).1).trans hpk
  · have hidkeys : ((buildUniq events).map (fun p => p.2)).map
        (fun e => e.identifier) = (buildUniq events).map Prod.fst := by
      rw [List.map_map]
      apply List.map_congr_left
      intro p hp
      exact (hval p hp).1
    have hnd2 : (((buildUniq events).map (fun p => p.2)).map
        (fun e => e.identifier)).Nodup := by
      rw [hidkeys]; exact hnd
    exact (List.Perm.nodup_iff (hperm.map (fun e => e.identifier))).mpr hnd2
  · intro year monTxt day t1 t2 hh1 mi1 hh2 mi2 e1 e2 h1 h2
    obtain ⟨mo1, hmo1, hid1⟩ := processRow_identifier year monTxt day t1 hh1 mi1 e1 h1
    obtain ⟨mo2, hmo2, hid2⟩ := processRow_identifier year monTxt day t2 hh2 mi2 e2 h2
    have : mo1 = mo2 := by
      have := hmo1.symm.trans hmo2
      simpa using this
    rw [hid1, hid2, this]

/-- Witness for C7: of two same-day rows with different times, a survivor
with their shared identifier exists among the deduplicated events. -/
theorem C7_dedup_and_sort_witness :
    ∃ e ∈ dedupSort
        [⟨"2026-08-12", ⟨2026, 8, 12, 17, 0⟩, "Total", none⟩,
         ⟨"2026-08-12", ⟨2026, 8, 12, 5, 0⟩, "Total", none⟩],
      e.identifier =
        (⟨"2026-08-12", ⟨2026, 8, 12, 17, 0⟩, "Total", none⟩ :
          EclipseEvent).identifier :=
  (C7_dedup_and_sort _).2.2.1 _ (by simp)

/-! ## Claim C2: local-maximum search -/

/-- The scanning fold returns one of the evaluated instants. -/
theorem scanMin_mem (sep : ℤ → ℝ) (cands : List ℤ) (init : ℤ) :
    scanMin sep init cands ∈ init :: cands := by
  induction cands generalizing init with
  | nil => simp [scanMin]
  | cons c cs ih =>
    have hstep : scanMin sep init (c :: cs) =
        scanMin sep (if sep c < sep init then c else init) cs := rfl
    rw [hstep]
    have h2 := ih (if sep c < sep init then c else init)
    rcases List.mem_cons.mp h2 with h | h
    · rw [h]
      by_cases hc : sep c < sep init
      · simp [hc]
      · simp [hc]
    · exact List.mem_cons_of_mem _ (List.mem_cons_of_mem _ h)

/-- The scanning fold minimises the separation over the evaluated
instants. -/
theorem scanMin_le (sep : ℤ → ℝ) (cands : List ℤ) (init : ℤ) :
    ∀ x ∈ init :: cands, sep (scanMin sep init cands) ≤ sep x := by
  induction cands generalizing init with
  | nil =>
    intro x hx
    have hxi : x = init := by simpa using hx
    simp [scanMin, hxi]
  | cons c cs ih =>
    intro x hx
    have hstep : scanMin sep init (c :: cs) =
        scanMin sep (if sep c < sep init then c else init) cs := rfl
    rw [hstep]
    have hinit : sep (scanMin sep (if sep c < sep init then c else init) cs) ≤
        sep (if sep c < sep init then c else init) :=
      ih _ _ (List.mem_cons_self _ _)
    rcases List.mem_cons.mp hx with rfl | hx1
    · refine le_trans hinit ?_
      by_cases hc : sep c < sep x
      · simpa [hc] using le_of_lt hc
      · simp [hc]
    · rcases List.mem_cons.mp hx1 with rfl | hx2
      · refine le_trans hinit ?_
        by_cases hc : sep x < sep init
        · simp [hc]
        · simpa [hc] using le_of_not_lt hc
      · exact ih _ x (List.mem_cons_of_mem _ hx2)

/-- With a unique strict minimiser among the evaluated instants, the scan
returns it. -/
theorem scanMin_eq_of_unique (sep : ℤ → ℝ) (cands : List ℤ) (init u : ℤ)
    (hu : u ∈ init :: cands)
    (hlt : ∀ x ∈ init :: cands, x ≠ u → sep u < sep x) :
    scanMin sep init cands = u := by
  by_contra hne
  have hmem := scanMin_mem sep cands init
  have hle := scanMin_le sep cands init u hu
  exact absurd (lt_of_le_of_lt hle (hlt _ hmem hne)) (lt_irrefl _)

/-- The instants at which `async_find_local_maximum` evaluates the
separation: the seed, the coarse 5-minute grid, and the 1-minute refine
grid around the coarse minimiser. -/
noncomputable def evalInstants (sep : ℤ → ℝ) (approx : ℤ) : List ℤ :=
  approx :: (coarseGrid approx ++ refineGrid (scanMin sep approx (coarseGrid approx)))

/-- Multiplying the absolute distances by a positive slope preserves
strict comparison of the integer distances. -/
theorem absSlope_lt (k : ℝ) (hk : 0 < k) (z w : ℤ) (h : |z| < |w|) :
    k * |(z : ℝ)| < k * |(w : ℝ)| := by
  have hcast : ((|z| : ℤ) : ℝ) < ((|w| : ℤ) : ℝ) := by exact_mod_cast h
  rw [Int.cast_abs, Int.cast_abs] at hcast
  exact mul_lt_mul_of_pos_left hcast hk

/-- Value of the rounded overlap computation at zero separation for the
source's fixed radii: `round(100 · 15.5² / 16², 1) = 93.8`. -/
theorem overlapPercent_at_zero :
    overlapPercent 0 sun_radius_rad moon_radius_rad = 93.8 := by
  have hsum : ¬(sun_radius_rad + moon_radius_rad ≤ 0) := by
    norm_num [sun_radius_rad, moon_radius_rad, piLit]
  have habs : (0 : ℝ) ≤ |sun_radius_rad - moon_radius_rad| := abs_nonneg _
  have hmin : min sun_radius_rad moon_radius_rad = moon_radius_rad := by
    apply min_eq_right
    norm_num [sun_radius_rad, moon_radius_rad, piLit]
  rw [overlapPercent, if_neg hsum, if_pos habs, hmin]
  have harg : 100 * (piLit * moon_radius_rad ^ 2) / (piLit * sun_radius_rad ^ 2) =
      24025 / 256 := by
    rw [sun_radius_rad, moon_radius_rad, piLit]
    norm_num
  rw [harg]
  have hround : round ((10 : ℝ) * (24025 / 256)) = 938 := by
    rw [round_eq]
    apply Int.floor_eq_iff.mpr
    constructor <;> norm_num
  rw [roundTo1, hround]
  norm_num

/-- Claim C2: the search evaluates the separation on the seed, the coarse
5-minute grid over `[approx - 3h, approx + 3h]` and the refine 1-minute
grid over `[coarse - 10min, coarse + 10min]`, returns an evaluated instant
minimising the separation, paired with the overlap coverage at that
instant; and for a separation shrinking linearly to zero exactly at
`approx + 3min` and growing afterwards, it returns `approx + 3` with
positive coverage. -/
theorem C2_local_maximum_search (sep : ℤ → ℝ) (approx : ℤ) :
    ((async_find_local_maximum sep approx).1 ∈ evalInstants sep approx ∧
      (∀ t ∈ evalInstants sep approx,
        sep (async_find_local_maximum sep approx).1 ≤ sep t) ∧
      (async_find_local_maximum sep approx).2 =
        overlapPercent (sep (async_find_local_maximum sep approx).1)
          sun_radius_rad moon_radius_rad) ∧
    (∀ k : ℝ, 0 < k → (∀ t : ℤ, sep t = k * |((t - (approx + 3) : ℤ) : ℝ)|) →
      (async_find_local_maximum sep approx).1 = approx + 3 ∧
        0 < (async_find_local_maximum sep approx).2) := by
  have hfst0 : (async_find_local_maximum sep approx).1 =
      scanMin sep (scanMin sep approx (coarseGrid approx))
        (refineGrid (scanMin sep approx (coarseGrid approx))) := rfl
  constructor
  · refine ⟨?_, ?_, rfl⟩
    · rw [hfst0, evalInstants]
      have hbmem := scanMin_mem sep
        (refineGrid (scanMin sep approx (coarseGrid approx)))
        (scanMin sep approx (coarseGrid approx))
      rcases List.mem_cons.mp hbmem with h | h
      · rw [h]
        have hcmem := scanMin_mem sep (coarseGrid approx) approx
        rcases List.mem_cons.mp hcmem with h2 | h2
        · rw [h2]
          exact List.mem_cons_self _ _
        · exact List.mem_cons_of_mem _ (List.mem_append_left _ h2)
      · exact List.mem_cons_of_mem _ (List.mem_append_right _ h)
    · intro t ht
      rw [hfst0]
      have hb := scanMin_le sep
        (refineGrid (scanMin sep approx (coarseGrid approx)))
        (scanMin sep approx (coarseGrid approx))
      have hc := scanMin_le sep (coarseGrid approx) approx
      have hbc : sep (scanMin sep (scanMin sep approx (coarseGrid approx))
          (refineGrid (scanMin sep approx (coarseGrid approx)))) ≤
          sep (scanMin sep approx (coarseGrid approx)) :=
        hb _ (List.mem_cons_self _ _)
      rcases List.mem_cons.mp ht with rfl | ht1
      · exact le_trans hbc (hc _ (List.mem_cons_self _ _))
      · rcases List.mem_append.mp ht1 with ht2 | ht2
        · exact le_trans hbc (hc _ (List.mem_cons_of_mem _ ht2))
        · exact hb _ (List.mem_cons_of_mem _ ht2)
  · intro k hk hsep
    have hcoarse : scanMin sep approx (coarseGrid approx) = approx + 5 := by
      apply scanMin_eq_of_unique
      · refine List.mem_cons_of_mem _ ?_
        rw [coarseGrid]
        apply List.mem_map.mpr
        exact ⟨37, List.mem_range.mpr (by norm_num), by push_cast; ring⟩
      · intro x hx hne
        rw [hsep, hsep]
        have hdiff5 : (approx + 5 - (approx + 3) : ℤ) = 2 := by ring
        rw [hdiff5]
        rcases List.mem_cons.mp hx with hxa | hx1
        · have hd : (x - (approx + 3) : ℤ) = -3 := by rw [hxa]; ring
          rw [hd]
          exact absSlope_lt k hk 2 (-3) (by decide)
        · rw [coarseGrid] at hx1
          obtain ⟨i, hi0, hxi⟩ := List.mem_map.mp hx1
          have hi := List.mem_range.mp hi0
          have hd : (x - (approx + 3) : ℤ) = 5 * (i : ℤ) - 183 := by
            rw [← hxi]; ring
          have hine : (i : ℤ) ≠ 37 := by
            intro hcon
            apply hne
            rw [← hxi, hcon]
            ring
          rw [hd]
          apply absSlope_lt k hk 2 _
          have h2 : |(2 : ℤ)| = 2 := by decide
          have hcases : 3 ≤ 5 * (i : ℤ) - 183 ∨ 5 * (i : ℤ) - 183 ≤ -3 := by
            omega
          rw [h2]
          rcases hcases with h | h
          · rw [abs_of_nonneg (by omega : (0 : ℤ) ≤ 5 * (i : ℤ) - 183)]
            omega
          · rw [abs_of_nonpos (by omega : 5 * (i : ℤ) - 183 ≤ 0)]
            omega
    have hbest : scanMin sep (approx + 5) (refineGrid (approx + 5)) =
        approx + 3 := by
      apply scanMin_eq_of_unique
      · refine List.mem_cons_of_mem _ ?_
        rw [refineGrid]
        apply List.mem_map.mpr
        exact ⟨8, List.mem_range.mpr (by norm_num), by push_cast; ring⟩
      · intro x hx hne
        have hzero : sep (approx + 3) = 0 := by
          rw [hsep]
          simp
        rw [hzero, hsep]
        have hdne : (x - (approx + 3) : ℤ) ≠ 0 := by
          intro hcon
          apply hne
          omega
        apply mul_pos hk
        rw [abs_pos]
        exact_mod_cast hdne
    have hfst : (async_find_local_maximum sep approx).1 = approx + 3 := by
      rw [hfst0, hcoarse, hbest]
    refine ⟨hfst, ?_⟩
    have hsnd : (async_find_local_maximum sep approx).2 =
        overlapPercent (sep (async_find_local_maximum sep approx).1)
          sun_radius_rad moon_radius_rad := rfl
    have hzero : sep (approx + 3) = 0 := by
      rw [hsep]
      simp
    rw [hsnd, hfst, hzero, overlapPercent_at_zero]
    norm_num

/-- Witness for C2: with slope 1 and approximate instant 0, the search
returns minute 3 with positive coverage. -/
theorem C2_local_maximum_search_witness :
    (async_find_local_maximum (fun t => 1 * |((t - 3 : ℤ) : ℝ)|) 0).1 = 3 ∧
      0 < (async_find_local_maximum (fun t => 1 * |((t - 3 : ℤ) : ℝ)|) 0).2 := by
  have h := (C2_local_maximum_search (fun t => 1 * |((t - 3 : ℤ) : ℝ)|) 0).2 1
    one_pos (fun t => by norm_num)
  simpa using h

/-! ## Claim C3: contact-time search -/

/-- Running the backward loop from step `j` when the first gate failure is
at step `n`: the loop returns the instant of the last passed step. -/
theorem scanBackAux_run (cov : ℤ → ℝ) (maxT : ℤ) (n : ℕ) (hn : n ≤ 120)
    (hpass : ∀ i : ℕ, i < n → (0.1 : ℝ) < cov (maxT - 2 * (i : ℤ)))
    (hstop : ¬(maxT - 240 < maxT - 2 * (n : ℤ) ∧
      (0.1 : ℝ) < cov (maxT - 2 * (n : ℤ)))) :
    ∀ fuel j : ℕ, j ≤ n → n < fuel + j →
      scanBackAux cov (maxT - 240) fuel (maxT - 2 * (j : ℤ))
        (if j = 0 then maxT else maxT - 2 * ((j : ℤ) - 1)) =
      (if n = 0 then maxT else maxT - 2 * ((n : ℤ) - 1)) := by
  intro fuel
  induction fuel with
  | zero =>
    intro j hj hfj
    omega
  | succ fuel ih =>
    intro j hj hfj
    by_cases hjn : j = n
    · subst hjn
      simp only [scanBackAux]
      rw [if_neg hstop]
    · have hjlt : j < n := lt_of_le_of_ne hj hjn
      have hj120 : (j : ℤ) < 120 := by exact_mod_cast lt_of_lt_of_le hjlt hn
      have hgate : maxT - 240 < maxT - 2 * (j : ℤ) := by omega
      have hcov := hpass j hjlt
      simp only [scanBackAux]
      rw [if_pos ⟨hgate, hcov⟩]
      have harg1 : maxT - 2 * (j : ℤ) - 2 = maxT - 2 * ((j + 1 : ℕ) : ℤ) := by
        push_cast; ring
      have harg2 : maxT - 2 * (j : ℤ) =
          (if (j + 1 : ℕ) = 0 then maxT
           else maxT - 2 * (((j + 1 : ℕ) : ℤ) - 1)) := by
        rw [if_neg (Nat.succ_ne_zero j)]
        push_cast; ring
      rw [harg1, harg2]
      exact ih (j + 1) (by omega) (by omega)

/-- Running the forward loop: mirror image of `scanBackAux_run`. -/
theorem scanFwdAux_run (cov : ℤ → ℝ) (maxT : ℤ) (n : ℕ) (hn : n ≤ 120)
    (hpass : ∀ i : ℕ, i < n → (0.1 : ℝ) < cov (maxT + 2 * (i : ℤ)))
    (hstop : ¬(maxT + 2 * (n : ℤ) < maxT + 240 ∧
      (0.1 : ℝ) < cov (maxT + 2 * (n : ℤ)))) :
    ∀ fuel j : ℕ, j ≤ n → n < fuel + j →
      scanFwdAux cov (maxT + 240) fuel (maxT + 2 * (j : ℤ))
        (if j = 0 then maxT else maxT + 2 * ((j : ℤ) - 1)) =
      (if n = 0 then maxT else maxT + 2 * ((n : ℤ) - 1)) := by
  intro fuel
  induction fuel with
  | zero =>
    intro j hj hfj
    omega
  | succ fuel ih =>
    intro j hj hfj
    by_cases hjn : j = n
    · subst hjn
      simp only [scanFwdAux]
      rw [if_neg hstop]
    · have hjlt : j < n := lt_of_le_of_ne hj hjn
      have hj120 : (j : ℤ) < 120 := by exact_mod_cast lt_of_lt_of_le hjlt hn
      have hgate : maxT + 2 * (j : ℤ) < maxT + 240 := by omega
      have hcov := hpass j hjlt
      simp only [scanFwdAux]
      rw [if_pos ⟨hgate, hcov⟩]
      have harg1 : maxT + 2 * (j : ℤ) + 2 = maxT + 2 * ((j + 1 : ℕ) : ℤ) := by
        push_cast; ring
      have harg2 : maxT + 2 * (j : ℤ) =
          (if (j + 1 : ℕ) = 0 then maxT
           else maxT + 2 * (((j + 1 : ℕ) : ℤ) - 1)) := by
        rw [if_neg (Nat.succ_ne_zero j)]
        push_cast; ring
      rw [harg1, harg2]
      exact ih (j + 1) (by omega) (by omega)

/-- Claim C3: `async_find_contact_times` is unavailable exactly when the
local maximum's coverage is not positive; otherwise it returns a bracket
`(start, end)` around the local-maximum instant where, whenever the
occlusion at the maximum already exceeds the 0.1 threshold, `start` is the
last instant of the consecutive backward 2-minute scan still above the
threshold within the 4-hour (119-step) limit, and `end` is the symmetric
forward one. -/
theorem C3_contact_time_search (sep : ℤ → ℝ) (approx : ℤ) :
    (async_find_contact_times sep approx = none ↔
      (async_find_local_maximum sep approx).2 ≤ 0) ∧
    (∀ s e, async_find_contact_times sep approx = some (s, e) →
      s ≤ (async_find_local_maximum sep approx).1 ∧
      (async_find_local_maximum sep approx).1 ≤ e ∧
      ((0.1 : ℝ) < contactCov sep (async_find_local_maximum sep approx).1 →
        (∃ n : ℕ, n ≤ 119 ∧
          s = (async_find_local_maximum sep approx).1 - 2 * (n : ℤ) ∧
          (∀ i : ℕ, i ≤ n → (0.1 : ℝ) <
            contactCov sep ((async_find_local_maximum sep approx).1 - 2 * (i : ℤ))) ∧
          (n = 119 ∨ ¬((0.1 : ℝ) <
            contactCov sep
              ((async_find_local_maximum sep approx).1 - 2 * ((n : ℤ) + 1))))) ∧
        (∃ m : ℕ, m ≤ 119 ∧
          e = (async_find_local_maximum sep approx).1 + 2 * (m : ℤ) ∧
          (∀ i : ℕ, i ≤ m → (0.1 : ℝ) <
            contactCov sep ((async_find_local_maximum sep approx).1 + 2 * (i : ℤ))) ∧
          (m = 119 ∨ ¬((0.1 : ℝ) <
            contactCov sep
              ((async_find_local_maximum sep approx).1 + 2 * ((m : ℤ) + 1))))))) := by
  classical
  have hunfold : async_find_contact_times sep approx =
      if (async_find_local_maximum sep approx).2 ≤ 0 then none
      else some
        (scanBackAux (contactCov sep)
          ((async_find_local_maximum sep approx).1 - 240) 121
          (async_find_local_maximum sep approx).1
          (async_find_local_maximum sep approx).1,
         scanFwdAux (contactCov sep)
          ((async_find_local_maximum sep approx).1 + 240) 121
          (async_find_local_maximum sep approx).1
          (async_find_local_maximum sep approx).1) := rfl
  constructor
  · constructor
    · intro h
      by_contra hpos
      rw [hunfold, if_neg hpos] at h
      exact Option.noConfusion h
    · intro h
      rw [hunfold, if_pos h]
  · intro s e hse
    have hpos : ¬((async_find_local_maximum sep approx).2 ≤ 0) := by
      intro hle
      rw [hunfold, if_pos hle] at hse
      exact Option.noConfusion hse
    rw [hunfold, if_neg hpos] at hse
    have hpair := Option.some.inj hse
    have hsEq : scanBackAux (contactCov sep)
        ((async_find_local_maximum sep approx).1 - 240) 121
        (async_find_local_maximum sep approx).1
        (async_find_local_maximum sep approx).1 = s := congrArg Prod.fst hpair
    have heEq : scanFwdAux (contactCov sep)
        ((async_find_local_maximum sep approx).1 + 240) 121
        (async_find_local_maximum sep approx).1
        (async_find_local_maximum sep approx).1 = e := congrArg Prod.snd hpair
    set M := (async_find_local_maximum sep approx).1 with hMdef
    have h120b : ¬(M - 240 < M - 2 * ((120 : ℕ) : ℤ) ∧
        (0.1 : ℝ) < contactCov sep (M - 2 * ((120 : ℕ) : ℤ))) := by
      rintro ⟨h1, -⟩
      push_cast at h1
      omega
    have hexb : ∃ i : ℕ, ¬(M - 240 < M - 2 * (i : ℤ) ∧
        (0.1 : ℝ) < contactCov sep (M - 2 * (i : ℤ))) := ⟨120, h120b⟩
    have h120f : ¬(M + 2 * ((120 : ℕ) : ℤ) < M + 240 ∧
        (0.1 : ℝ) < contactCov sep (M + 2 * ((120 : ℕ) : ℤ))) := by
      rintro ⟨h1, -⟩
      push_cast at h1
      omega
    have hexf : ∃ i : ℕ, ¬(M + 2 * (i : ℤ) < M + 240 ∧
        (0.1 : ℝ) < contactCov sep (M + 2 * (i : ℤ))) := ⟨120, h120f⟩
    have hstopb := Nat.find_spec hexb
    have hstopf := Nat.find_spec hexf
    have hnb : Nat.find hexb ≤ 120 := Nat.find_le h120b
    have hnf : Nat.find hexf ≤ 120 := Nat.find_le h120f
    have hpassb : ∀ i : ℕ, i < Nat.find hexb →
        (0.1 : ℝ) < contactCov sep (M - 2 * (i : ℤ)) := by
      intro i hi
      exact (not_not.mp (Nat.find_min hexb hi)).2
    have hpassf : ∀ i : ℕ, i < Nat.find hexf →
        (0.1 : ℝ) < contactCov sep (M + 2 * (i : ℤ)) := by
      intro i hi
      exact (not_not.mp (Nat.find_min hexf hi)).2
    have hrunb := scanBackAux_run (contactCov sep) M (Nat.find hexb) hnb hpassb
      hstopb 121 0 (by omega) (by omega)
    have hrunf := scanFwdAux_run (contactCov sep) M (Nat.find hexf) hnf hpassf
      hstopf 121 0 (by omega) (by omega)
    simp only [Nat.cast_zero, mul_zero, sub_zero, if_pos] at hrunb
    simp only [Nat.cast_zero, mul_zero, add_zero, if_pos] at hrunf
    have hsval : s = if Nat.find hexb = 0 then M
        else M - 2 * ((Nat.find hexb : ℤ) - 1) := by
      rw [← hsEq, ← hrunb]
    have heval : e = if Nat.find hexf = 0 then M
        else M + 2 * ((Nat.find hexf : ℤ) - 1) := by
      rw [← heEq, ← hrunf]
    refine ⟨?_, ?_, ?_⟩
    · rw [hsval]
      by_cases h0 : Nat.find hexb = 0
      · rw [if_pos h0]
      · rw [if_neg h0]
        have h1 : (1 : ℤ) ≤ (Nat.find hexb : ℤ) := by
          exact_mod_cast Nat.one_le_iff_ne_zero.mpr h0
        omega
    · rw [heval]
      by_cases h0 : Nat.find hexf = 0
      · rw [if_pos h0]
      · rw [if_neg h0]
        have h1 : (1 : ℤ) ≤ (Nat.find hexf : ℤ) := by
          exact_mod_cast Nat.one_le_iff_ne_zero.mpr h0
        omega
    · intro hc
      have hne0b : Nat.find hexb ≠ 0 := by
        intro h0
        rw [h0] at hstopb
        simp only [Nat.cast_zero, mul_zero, sub_zero] at hstopb
        exact hstopb ⟨by omega, hc⟩
      have hne0f : Nat.find hexf ≠ 0 := by
        intro h0
        rw [h0] at hstopf
        simp only [Nat.cast_zero, mul_zero, add_zero] at hstopf
        exact hstopf ⟨by omega, hc⟩
      have hposb : 1 ≤ Nat.find hexb := Nat.one_le_iff_ne_zero.mpr hne0b
      have hposf : 1 ≤ Nat.find hexf := Nat.one_le_iff_ne_zero.mpr hne0f
      constructor
      · refine ⟨Nat.find hexb - 1, by omega, ?_, ?_, ?_⟩
        · rw [hsval, if_neg hne0b]
          have hcast : ((Nat.find hexb - 1 : ℕ) : ℤ) = (Nat.find hexb : ℤ) - 1 := by
            omega
          rw [hcast]
        · intro i hi
          exact hpassb i (by omega)
        · by_cases h119 : Nat.find hexb - 1 = 119
          · exact Or.inl h119
          · right
            intro hcov
            have hcast : ((Nat.find hexb - 1 : ℕ) : ℤ) + 1 = (Nat.find hexb : ℤ) := by
              omega
            rw [hcast] at hcov
            have hlt : (Nat.find hexb : ℤ) < 120 := by
              have : Nat.find hexb ≤ 119 := by omega
              exact_mod_cast Nat.lt_succ_of_le this
            exact hstopb ⟨by omega, hcov⟩
      · refine ⟨Nat.find hexf - 1, by omega, ?_, ?_, ?_⟩
        · rw [heval, if_neg hne0f]
          have hcast : ((Nat.find hexf - 1 : ℕ) : ℤ) = (Nat.find hexf : ℤ) - 1 := by
            omega
          rw [hcast]
        · intro i hi
          exact hpassf i (by omega)
        · by_cases h119 : Nat.find hexf - 1 = 119
          · exact Or.inl h119
          · right
            intro hcov
            have hcast : ((Nat.find hexf - 1 : ℕ) : ℤ) + 1 = (Nat.find hexf : ℤ) := by
              omega
            rw [hcast] at hcov
            have hlt : (Nat.find hexf : ℤ) < 120 := by
              have : Nat.find hexf ≤ 119 := by omega
              exact_mod_cast Nat.lt_succ_of_le this
            exact hstopf ⟨by omega, hcov⟩

/-- Witness for C3: a constant separation far larger than the summed radii
gives zero coverage at the local maximum, so the contact times are
unavailable. -/
theorem C3_contact_time_search_witness :
    async_find_contact_times (fun _ => (10 : ℝ)) 0 = none := by
  apply (C3_contact_time_search (fun _ => (10 : ℝ)) 0).1.mpr
  have hcov : (async_find_local_maximum (fun _ => (10 : ℝ)) 0).2 =
      overlapPercent 10 sun_radius_rad moon_radius_rad := rfl
  rw [hcov, overlapPercent, if_pos]
  norm_num [sun_radius_rad, moon_radius_rad, piLit]

/-! ## Analysis of the overlap calculator (for claims C1 and C9)

The partial-overlap branch computes the classical two-circle lens area.
We show it is the function `d ↦ R² F(u) + r² F(v)` with
`F(w) = arccos w - w √(1 - w²)` and `u, v` the two (un-clamped) cosine
arguments, that this function is strictly decreasing in `d` between the
tangency separations, and that it therefore stays below the
full-containment value `π r²`. -/

/-- The first inverse-cosine argument of the lens formula (the second is
`acosArg d r R`). -/
noncomputable def acosArg (d R r : ℝ) : ℝ := (d * d + R * R - r * r) / (2 * d * R)

/-- The per-circle term of the closed form of the lens area. -/
noncomputable def segFun (w : ℝ) : ℝ := Real.arccos w - w * Real.sqrt (1 - w ^ 2)

/-- Closed form of the lens area on the overlap range. -/
noncomputable def lensAreaC (d R r : ℝ) : ℝ :=
  R ^ 2 * segFun (acosArg d R r) + r ^ 2 * segFun (acosArg d r R)

/-- On the closed overlap range the cosine argument lies in `[-1, 1]`. -/
theorem acosArg_mem (d R r : ℝ) (hR : 0 < R) (hr : 0 < r) (hd : 0 < d)
    (h1 : |R - r| ≤ d) (h2 : d ≤ R + r) :
    -1 ≤ acosArg d R r ∧ acosArg d R r ≤ 1 := by
  have hden : 0 < 2 * d * R := by positivity
  have habs := abs_le.mp h1
  constructor
  · rw [acosArg, le_div_iff₀ hden]
    nlinarith [habs.1, habs.2]
  · rw [acosArg, div_le_one hden]
    nlinarith [habs.1, habs.2]

/-- Strictly inside the overlap range the cosine argument is strictly
inside `(-1, 1)`. -/
theorem acosArg_mem_strict (d R r : ℝ) (hR : 0 < R) (hr : 0 < r)
    (h1 : |R - r| < d) (h2 : d < R + r) :
    -1 < acosArg d R r ∧ acosArg d R r < 1 := by
  have hd : 0 < d := lt_of_le_of_lt (abs_nonneg _) h1
  have hden : 0 < 2 * d * R := by positivity
  have habs := abs_lt.mp h1
  constructor
  · rw [acosArg, lt_div_iff₀ hden]
    nlinarith [habs.1, habs.2]
  · rw [acosArg, div_lt_one hden]
    nlinarith [habs.1, habs.2]

/-- The clamp is the identity on `[-1, 1]`. -/
theorem clampUnit_eq (w : ℝ) (h1 : -1 ≤ w) (h2 : w ≤ 1) : clampUnit w = w := by
  rw [clampUnit, min_eq_right h2, max_eq_right h1]

/-- On the closed overlap range the coded lens area agrees with the closed
form. -/
theorem lensArea_eq_closed (d R r : ℝ) (hR : 0 < R) (hr : 0 < r) (hd : 0 < d)
    (h1 : |R - r| ≤ d) (h2 : d ≤ R + r) :
    lensArea d R r = lensAreaC d R r := by
  have hu := acosArg_mem d R r hR hr hd h1 h2
  have hv := acosArg_mem d r R hr hR hd (by rwa [abs_sub_comm]) (by linarith)
  have hsin : ∀ w : ℝ, -1 ≤ w → w ≤ 1 →
      Real.sin (2 * Real.arccos w) = 2 * Real.sqrt (1 - w ^ 2) * w := by
    intro w hw1 hw2
    rw [Real.sin_two_mul, Real.sin_arccos, Real.cos_arccos hw1 hw2]
  have hcu := clampUnit_eq _ hu.1 hu.2
  have hcv := clampUnit_eq _ hv.1 hv.2
  simp only [acosArg] at hu hv hcu hcv
  simp only [lensArea, lensAreaC, acosArg, segFun]
  rw [hcu, hcv, hsin _ hu.1 hu.2, hsin _ hv.1 hv.2]
  ring

/-- Derivative of the per-circle term: `F'(w) = -2√(1 - w²)` on `(-1, 1)`. -/
theorem segFun_hasDerivAt (w : ℝ) (hw1 : -1 < w) (hw2 : w < 1) :
    HasDerivAt segFun (-2 * Real.sqrt (1 - w ^ 2)) w := by
  have hpos : 0 < 1 - w ^ 2 := by nlinarith
  have hne : 1 - w ^ 2 ≠ 0 := ne_of_gt hpos
  have hss : Real.sqrt (1 - w ^ 2) * Real.sqrt (1 - w ^ 2) = 1 - w ^ 2 :=
    Real.mul_self_sqrt (le_of_lt hpos)
  have h1 : HasDerivAt (fun x : ℝ => 1 - x ^ 2) (-(2 * w)) w := by
    simpa using (hasDerivAt_pow 2 w).const_sub 1
  have h2 : HasDerivAt (fun x : ℝ => Real.sqrt (1 - x ^ 2))
      (1 / (2 * Real.sqrt (1 - w ^ 2)) * -(2 * w)) w :=
    (Real.hasDerivAt_sqrt hne).comp w h1
  have h3 : HasDerivAt (fun x : ℝ => x * Real.sqrt (1 - x ^ 2))
      (1 * Real.sqrt (1 - w ^ 2) + w * (1 / (2 * Real.sqrt (1 - w ^ 2)) * -(2 * w)))
      w := (hasDerivAt_id w).mul h2
  have h4 : HasDerivAt Real.arccos (-(1 / Real.sqrt (1 - w ^ 2))) w :=
    Real.hasDerivAt_arccos (ne_of_gt hw1) (ne_of_lt hw2)
  have h5 := h4.sub h3
  have hs : 0 < Real.sqrt (1 - w ^ 2) := Real.sqrt_pos.mpr hpos
  have key : -(1 / Real.sqrt (1 - w ^ 2)) -
      (1 * Real.sqrt (1 - w ^ 2) + w * (1 / (2 * Real.sqrt (1 - w ^ 2)) * -(2 * w)))
      = -2 * Real.sqrt (1 - w ^ 2) := by
    field_simp
    nlinarith [hss]
  rw [key] at h5
  exact h5

/-- Derivative of the cosine argument in the separation variable. -/
theorem acosArg_hasDerivAt (d R r : ℝ) (hd : d ≠ 0) (hR : R ≠ 0) :
    HasDerivAt (fun x => acosArg x R r)
      ((d * d - R * R + r * r) / (2 * d * d * R)) d := by
  have hnum : HasDerivAt (fun x : ℝ => x * x + R * R - r * r) (1 * d + d * 1) d :=
    (((hasDerivAt_id d).mul (hasDerivAt_id d)).add_const (R * R)).sub_const (r * r)
  have hden : HasDerivAt (fun x : ℝ => 2 * x * R) (2 * 1 * R) d :=
    ((hasDerivAt_id d).const_mul 2).mul_const R
  have hden0 : 2 * d * R ≠ 0 := by
    simp [mul_eq_zero, hd, hR]
  have h := hnum.div hden hden0
  have key : ((1 * d + d * 1) * (2 * d * R) - (d * d + R * R - r * r) * (2 * 1 * R)) /
      (2 * d * R) ^ 2 = (d * d - R * R + r * r) / (2 * d * d * R) := by
    have hb : (2 * d * R) ^ 2 ≠ 0 := pow_ne_zero 2 hden0
    have hc : 2 * d * d * R ≠ 0 := by
      simp [mul_eq_zero, hd, hR]
    rw [div_eq_div_iff hb hc]
    ring
  rw [key] at h
  exact h

/-- The chord half-length is the same computed from either disk. -/
theorem chord_eq (d R r : ℝ) (hR : 0 < R) (hr : 0 < r) (hd : d ≠ 0) :
    R * Real.sqrt (1 - acosArg d R r ^ 2) =
      r * Real.sqrt (1 - acosArg d r R ^ 2) := by
  rw [show R * Real.sqrt (1 - acosArg d R r ^ 2) =
      Real.sqrt (R ^ 2 * (1 - acosArg d R r ^ 2)) from by
    rw [Real.sqrt_mul (sq_nonneg R), Real.sqrt_sq hR.le]]
  rw [show r * Real.sqrt (1 - acosArg d r R ^ 2) =
      Real.sqrt (r ^ 2 * (1 - acosArg d r R ^ 2)) from by
    rw [Real.sqrt_mul (sq_nonneg r), Real.sqrt_sq hr.le]]
  congr 1
  rw [acosArg, acosArg]
  field_simp
  ring

/-- Derivative of the closed-form lens area: `-2 ·` (chord half-length). -/
theorem lensAreaC_hasDerivAt (d R r : ℝ) (hR : 0 < R) (hr : 0 < r)
    (hu1 : -1 < acosArg d R r) (hu2 : acosArg d R r < 1)
    (hv1 : -1 < acosArg d r R) (hv2 : acosArg d r R < 1) (hd : 0 < d) :
    HasDerivAt (fun x => lensAreaC x R r)
      (-(2 * (R * Real.sqrt (1 - acosArg d R r ^ 2)))) d := by
  have hud := acosArg_hasDerivAt d R r (ne_of_gt hd) (ne_of_gt hR)
  have hvd := acosArg_hasDerivAt d r R (ne_of_gt hd) (ne_of_gt hr)
  have hsu := (segFun_hasDerivAt _ hu1 hu2).comp d hud
  have hsv := (segFun_hasDerivAt _ hv1 hv2).comp d hvd
  have hterm1 := hsu.const_mul (R ^ 2)
  have hterm2 := hsv.const_mul (r ^ 2)
  have hsum := hterm1.add hterm2
  have hchord := chord_eq d R r hR hr (ne_of_gt hd)
  have hRu : R * ((d * d - R * R + r * r) / (2 * d * d * R)) +
      r * ((d * d - r * r + R * R) / (2 * d * d * r)) = 1 := by
    field_simp
    ring
  have key : R ^ 2 * (-2 * Real.sqrt (1 - acosArg d R r ^ 2) *
        ((d * d - R * R + r * r) / (2 * d * d * R))) +
      r ^ 2 * (-2 * Real.sqrt (1 - acosArg d r R ^ 2) *
        ((d * d - r * r + R * R) / (2 * d * d * r))) =
      -(2 * (R * Real.sqrt (1 - acosArg d R r ^ 2))) := by
    have e1 : R ^ 2 * (-2 * Real.sqrt (1 - acosArg d R r ^ 2) *
          ((d * d - R * R + r * r) / (2 * d * d * R))) +
        r ^ 2 * (-2 * Real.sqrt (1 - acosArg d r R ^ 2) *
          ((d * d - r * r + R * R) / (2 * d * d * r))) =
        -2 * ((R * Real.sqrt (1 - acosArg d R r ^ 2)) *
            (R * ((d * d - R * R + r * r) / (2 * d * d * R))) +
          (r * Real.sqrt (1 - acosArg d r R ^ 2)) *
            (r * ((d * d - r * r + R * R) / (2 * d * d * r)))) := by
      ring
    rw [e1, ← hchord]
    rw [show (R * Real.sqrt (1 - acosArg d R r ^ 2)) *
          (R * ((d * d - R * R + r * r) / (2 * d * d * R))) +
        (R * Real.sqrt (1 - acosArg d R r ^ 2)) *
          (r * ((d * d - r * r + R * R) / (2 * d * d * r))) =
        (R * Real.sqrt (1 - acosArg d R r ^ 2)) *
          (R * ((d * d - R * R + r * r) / (2 * d * d * R)) +
           r * ((d * d - r * r + R * R) / (2 * d * d * r))) from by ring]
    rw [hRu]
    ring
  rw [key] at hsum
  exact hsum

/-- Clamping to `[-1, 1]` is continuous. -/
theorem continuous_clampUnit : Continuous clampUnit :=
  continuous_const.max (continuous_const.min continuous_id)

/-- The coded lens area is continuous on the closed overlap range (for
distinct positive radii the range stays away from zero separation). -/
theorem lensArea_continuousOn (R r : ℝ) (hr : 0 < r) (hrR : r < R) :
    ContinuousOn (fun x => lensArea x R r) (Set.Icc (R - r) (R + r)) := by
  have hne1 : ∀ x ∈ Set.Icc (R - r) (R + r), 2 * x * R ≠ 0 := by
    intro x hx
    have hx0 : 0 < x := by linarith [hx.1]
    have hR : 0 < R := by linarith
    simp [mul_eq_zero, ne_of_gt hx0, ne_of_gt hR]
  have hne2 : ∀ x ∈ Set.Icc (R - r) (R + r), 2 * x * r ≠ 0 := by
    intro x hx
    have hx0 : 0 < x := by linarith [hx.1]
    simp [mul_eq_zero, ne_of_gt hx0, ne_of_gt hr]
  have hcu : ContinuousOn (fun x : ℝ => (x * x + R * R - r * r) / (2 * x * R))
      (Set.Icc (R - r) (R + r)) := by
    apply ContinuousOn.div
    · fun_prop
    · fun_prop
    · exact hne1
  have hcv : ContinuousOn (fun x : ℝ => (x * x + r * r - R * R) / (2 * x * r))
      (Set.Icc (R - r) (R + r)) := by
    apply ContinuousOn.div
    · fun_prop
    · fun_prop
    · exact hne2
  have halpha : ContinuousOn
      (fun x : ℝ => 2 * Real.arccos (clampUnit ((x * x + R * R - r * r) / (2 * x * R))))
      (Set.Icc (R - r) (R + r)) :=
    continuousOn_const.mul
      ((Real.continuous_arccos.comp continuous_clampUnit).comp_continuousOn hcu)
  have hbeta : ContinuousOn
      (fun x : ℝ => 2 * Real.arccos (clampUnit ((x * x + r * r - R * R) / (2 * x * r))))
      (Set.Icc (R - r) (R + r)) :=
    continuousOn_const.mul
      ((Real.continuous_arccos.comp continuous_clampUnit).comp_continuousOn hcv)
  exact continuousOn_const.mul
    ((continuousOn_const.mul
        (halpha.sub (Real.continuous_sin.comp_continuousOn halpha))).add
      (continuousOn_const.mul
        (hbeta.sub (Real.continuous_sin.comp_continuousOn hbeta))))

/-- The coded lens area is strictly decreasing in the separation across
the whole partial-overlap range. -/
theorem lensArea_strictAntiOn (R r : ℝ) (hr : 0 < r) (hrR : r < R) :
    StrictAntiOn (fun x => lensArea x R r) (Set.Icc (R - r) (R + r)) := by
  have hR : 0 < R := lt_trans hr hrR
  apply strictAntiOn_of_deriv_neg (convex_Icc _ _) (lensArea_continuousOn R r hr hrR)
  intro x hx
  rw [interior_Icc] at hx
  have hx0 : 0 < x := by
    have := hx.1
    linarith
  have habs : |R - r| = R - r := abs_of_pos (by linarith)
  have hu := acosArg_mem_strict x R r hR hr (by rw [habs]; exact hx.1) hx.2
  have hv := acosArg_mem_strict x r R hr hR
    (by rw [abs_sub_comm, habs]; exact hx.1) (by linarith [hx.2])
  have heq : (fun y => lensArea y R r) =ᶠ[nhds x] (fun y => lensAreaC y R r) := by
    filter_upwards [isOpen_Ioo.mem_nhds hx] with y hy
    have hy0 : 0 < y := by
      have := hy.1
      linarith
    exact lensArea_eq_closed y R r hR hr hy0 (by rw [habs]; linarith [hy.1])
      (le_of_lt hy.2)
  rw [heq.deriv_eq,
    (lensAreaC_hasDerivAt x R r hR hr hu.1 hu.2 hv.1 hv.2 hx0).deriv]
  have hsq : 0 < 1 - acosArg x R r ^ 2 := by nlinarith [hu.1, hu.2]
  have hs : 0 < Real.sqrt (1 - acosArg x R r ^ 2) := Real.sqrt_pos.mpr hsq
  nlinarith [hs]

/-- Value of the coded lens area at the inner tangency: the full disk of
the smaller body, `π r²`. -/
theorem lensArea_left_endpoint (R r : ℝ) (hr : 0 < r) (hrR : r < R) :
    lensArea (R - r) R r = Real.pi * r ^ 2 := by
  have hR : 0 < R := lt_trans hr hrR
  have hd0 : (0 : ℝ) < R - r := by linarith
  have h1 : ((R - r) * (R - r) + R * R - r * r) / (2 * (R - r) * R) = 1 := by
    rw [show (R - r) * (R - r) + R * R - r * r = 2 * (R - r) * R from by ring]
    exact div_self (by positivity)
  have h2 : ((R - r) * (R - r) + r * r - R * R) / (2 * (R - r) * r) = -1 := by
    rw [show (R - r) * (R - r) + r * r - R * R = -(2 * (R - r) * r) from by ring]
    rw [neg_div]
    rw [div_self (by positivity : 2 * (R - r) * r ≠ 0)]
  simp only [lensArea, h1, h2]
  rw [show clampUnit 1 = 1 from by norm_num [clampUnit],
    show clampUnit (-1) = -1 from by norm_num [clampUnit],
    Real.arccos_one, Real.arccos_neg_one]
  rw [mul_zero, Real.sin_zero, Real.sin_two_pi]
  ring

/-- The coded lens area never exceeds the area of the smaller disk. -/
theorem lensArea_le (R r d : ℝ) (hr : 0 < r) (hrR : r < R)
    (h1 : R - r ≤ d) (h2 : d ≤ R + r) :
    lensArea d R r ≤ Real.pi * r ^ 2 := by
  rcases eq_or_lt_of_le h1 with heq | hlt
  · rw [← heq, lensArea_left_endpoint R r hr hrR]
  · have hmem1 : (R - r) ∈ Set.Icc (R - r) (R + r) := by
      constructor
      · exact le_refl _
      · linarith
    have hmem2 : d ∈ Set.Icc (R - r) (R + r) := ⟨h1, h2⟩
    have := lensArea_strictAntiOn R r hr hrR hmem1 hmem2 hlt
    simp only at this
    rw [lensArea_left_endpoint R r hr hrR] at this
    exact le_of_lt this

/-- The coded lens area is never negative. -/
theorem lensArea_nonneg (d R r : ℝ) : 0 ≤ lensArea d R r := by
  have hterm : ∀ w : ℝ, 0 ≤ 2 * Real.arccos w - Real.sin (2 * Real.arccos w) := by
    intro w
    have h0 : 0 ≤ 2 * Real.arccos w := by
      have := Real.arccos_nonneg w
      linarith
    have := Real.sin_le h0
    linarith
  simp only [lensArea]
  have t1 := hterm (clampUnit ((d * d + R * R - r * r) / (2 * d * R)))
  have t2 := hterm (clampUnit ((d * d + r * r - R * R) / (2 * d * r)))
  have m1 : (0 : ℝ) ≤ R * R := mul_self_nonneg R
  have m2 : (0 : ℝ) ≤ r * r := mul_self_nonneg r
  nlinarith [mul_nonneg m1 t1, mul_nonneg m2 t2]

/-! ## Claims C1 and C9: the coverage contract and its monotonicity -/

/-- The source's literal π constant is positive. -/
theorem piLit_pos : (0 : ℝ) < piLit := by norm_num [piLit]

/-- The Moon's coded angular radius is positive. -/
theorem moon_radius_pos : (0 : ℝ) < moon_radius_rad := by
  norm_num [moon_radius_rad, piLit]

/-- The Moon's coded angular radius is smaller than the Sun's. -/
theorem moon_lt_sun : moon_radius_rad < sun_radius_rad := by
  norm_num [sun_radius_rad, moon_radius_rad, piLit]

/-- For the coded radii the absolute difference is the plain difference. -/
theorem abs_radii_diff :
    |sun_radius_rad - moon_radius_rad| = sun_radius_rad - moon_radius_rad :=
  abs_of_pos (by linarith [moon_lt_sun])

/-- Rounding to one decimal preserves non-negativity. -/
theorem roundTo1_nonneg (x : ℝ) (hx : 0 ≤ x) : 0 ≤ roundTo1 x := by
  rw [roundTo1]
  apply div_nonneg _ (by norm_num : (0 : ℝ) ≤ 10)
  have h : (0 : ℤ) ≤ round (10 * x) := by
    rw [round_eq]
    apply Int.le_floor.mpr
    push_cast
    linarith
  exact_mod_cast h

/-- Rounding to one decimal is monotone. -/
theorem roundTo1_mono (x y : ℝ) (h : x ≤ y) : roundTo1 x ≤ roundTo1 y := by
  rw [roundTo1, roundTo1]
  have h2 : round (10 * x) ≤ round (10 * y) := by
    rw [round_eq, round_eq]
    exact Int.floor_le_floor (by linarith)
  have h3 : ((round (10 * x) : ℤ) : ℝ) ≤ ((round (10 * y) : ℤ) : ℝ) := by
    exact_mod_cast h2
  linarith

/-- An argument below `93.85` rounds to at most `93.8`. -/
theorem roundTo1_le_93p8 (x : ℝ) (hx : x < 93.85) : roundTo1 x ≤ 93.8 := by
  rw [roundTo1]
  have h : round ((10 : ℝ) * x) ≤ 938 := by
    rw [round_eq]
    have h2 : (10 : ℝ) * x + 1 / 2 < ((939 : ℤ) : ℝ) := by push_cast; linarith
    have h3 := Int.floor_lt.mpr h2
    omega
  have h4 : ((round ((10 : ℝ) * x) : ℤ) : ℝ) ≤ 938 := by exact_mod_cast h
  linarith

/-- In the partial-overlap branch at the coded radii, the unrounded
percentage argument stays strictly below `93.85`. -/
theorem branch3_arg_lt (d : ℝ)
    (h1 : ¬(sun_radius_rad + moon_radius_rad ≤ d))
    (h2 : ¬(d ≤ |sun_radius_rad - moon_radius_rad|)) :
    100 * lensArea d sun_radius_rad moon_radius_rad /
      (piLit * sun_radius_rad ^ 2) < 93.85 := by
  push_neg at h1 h2
  rw [abs_radii_diff] at h2
  have hm := moon_radius_pos
  have hms := moon_lt_sun
  have hS : 0 < sun_radius_rad := lt_trans hm hms
  have hla := lensArea_le sun_radius_rad moon_radius_rad d hm hms h2.le h1.le
  have hden : (0 : ℝ) < piLit * sun_radius_rad ^ 2 :=
    mul_pos piLit_pos (by positivity)
  rw [div_lt_iff₀ hden]
  have hgoal : 100 * (Real.pi * moon_radius_rad ^ 2) <
      93.85 * (piLit * sun_radius_rad ^ 2) := by
    rw [sun_radius_rad, moon_radius_rad, piLit]
    nlinarith [Real.pi_lt_d6, Real.pi_gt_three]
  linarith

/-- In the partial-overlap branch the unrounded argument is non-negative. -/
theorem branch3_arg_nonneg (d : ℝ) :
    0 ≤ 100 * lensArea d sun_radius_rad moon_radius_rad /
      (piLit * sun_radius_rad ^ 2) := by
  have hm := moon_radius_pos
  have hS : 0 < sun_radius_rad := lt_trans hm moon_lt_sun
  have hden : (0 : ℝ) < piLit * sun_radius_rad ^ 2 :=
    mul_pos piLit_pos (by positivity)
  apply div_nonneg _ hden.le
  nlinarith [lensArea_nonneg d sun_radius_rad moon_radius_rad]

/-- The containment branch at the coded radii always yields `93.8`,
independently of the separation. -/
theorem overlapPercent_contained (d : ℝ)
    (h1 : ¬(sun_radius_rad + moon_radius_rad ≤ d))
    (h2 : d ≤ |sun_radius_rad - moon_radius_rad|) :
    overlapPercent d sun_radius_rad moon_radius_rad = 93.8 := by
  rw [overlapPercent, if_neg h1, if_pos h2]
  have hmin : min sun_radius_rad moon_radius_rad = moon_radius_rad :=
    min_eq_right moon_lt_sun.le
  rw [hmin]
  have harg : 100 * (piLit * moon_radius_rad ^ 2) / (piLit * sun_radius_rad ^ 2) =
      24025 / 256 := by
    rw [sun_radius_rad, moon_radius_rad, piLit]
    norm_num
  rw [harg]
  have hround : round ((10 : ℝ) * (24025 / 256)) = 938 := by
    rw [round_eq]
    apply Int.floor_eq_iff.mpr
    constructor <;> norm_num
  rw [roundTo1, hround]
  norm_num

/-- At the coded radii the rounded overlap percentage lies in `[0, 93.8]`. -/
theorem overlapPercent_bounds (d : ℝ) :
    0 ≤ overlapPercent d sun_radius_rad moon_radius_rad ∧
      overlapPercent d sun_radius_rad moon_radius_rad ≤ 93.8 := by
  by_cases h1 : sun_radius_rad + moon_radius_rad ≤ d
  · rw [overlapPercent, if_pos h1]
    norm_num
  · by_cases h2 : d ≤ |sun_radius_rad - moon_radius_rad|
    · rw [overlapPercent_contained d h1 h2]
      norm_num
    · rw [overlapPercent, if_neg h1, if_neg h2]
      exact ⟨roundTo1_nonneg _ (branch3_arg_nonneg d),
        roundTo1_le_93p8 _ (branch3_arg_lt d h1 h2)⟩

/-- Claim C1: for every separation and the source's fixed radii, the
coverage computation returns a value in `[0, 100]`; it returns `0` when
`d ≥ R + r`; in the containment branch it returns `100·min(R,r)²/R²`
rounded to one decimal (the source's π-literal cancels); otherwise it
returns `100·area/(π·R²)` rounded to one decimal, with `area` the
clamped-arccos lens area and π the source's literal `3.1415926535`. -/
theorem C1_overlap_contract (d : ℝ) :
    (0 ≤ overlapPercent d sun_radius_rad moon_radius_rad ∧
      overlapPercent d sun_radius_rad moon_radius_rad ≤ 100) ∧
    (sun_radius_rad + moon_radius_rad ≤ d →
      overlapPercent d sun_radius_rad moon_radius_rad = 0) ∧
    (¬(sun_radius_rad + moon_radius_rad ≤ d) →
      d ≤ |sun_radius_rad - moon_radius_rad| →
      overlapPercent d sun_radius_rad moon_radius_rad =
        roundTo1 (100 * (min sun_radius_rad moon_radius_rad) ^ 2 /
          sun_radius_rad ^ 2)) ∧
    (¬(sun_radius_rad + moon_radius_rad ≤ d) →
      ¬(d ≤ |sun_radius_rad - moon_radius_rad|) →
      overlapPercent d sun_radius_rad moon_radius_rad =
        roundTo1 (100 * lensArea d sun_radius_rad moon_radius_rad /
          (piLit * sun_radius_rad ^ 2))) := by
  refine ⟨⟨(overlapPercent_bounds d).1,
    le_trans (overlapPercent_bounds d).2 (by norm_num)⟩, ?_, ?_, ?_⟩
  · intro h
    rw [overlapPercent, if_pos h]
  · intro h1 h2
    rw [overlapPercent, if_neg h1, if_pos h2]
    congr 1
    rw [show (100 : ℝ) * (piLit * (min sun_radius_rad moon_radius_rad) ^ 2) =
        piLit * (100 * (min sun_radius_rad moon_radius_rad) ^ 2) from by ring]
    exact mul_div_mul_left _ _ (ne_of_gt piLit_pos)
  · intro h1 h2
    rw [overlapPercent, if_neg h1, if_neg h2]

/-- Witness for C1 at zero separation: the containment branch applies and
the equality holds there. -/
theorem C1_overlap_contract_witness :
    ¬(sun_radius_rad + moon_radius_rad ≤ (0 : ℝ)) ∧
    (0 : ℝ) ≤ |sun_radius_rad - moon_radius_rad| ∧
    overlapPercent 0 sun_radius_rad moon_radius_rad =
      roundTo1 (100 * (min sun_radius_rad moon_radius_rad) ^ 2 /
        sun_radius_rad ^ 2) := by
  have h1 : ¬(sun_radius_rad + moon_radius_rad ≤ (0 : ℝ)) := by
    norm_num [sun_radius_rad, moon_radius_rad, piLit]
  have h2 : (0 : ℝ) ≤ |sun_radius_rad - moon_radius_rad| := abs_nonneg _
  exact ⟨h1, h2, (C1_overlap_contract 0).2.2.1 h1 h2⟩

/-- The unrounded contact-scan coverage at zero separation and equal unit
radii: the containment branch gives exactly `100`. -/
theorem coverageRaw_zero_one : coverageRaw 0 1 1 = 100 := by
  rw [coverageRaw, if_neg (by norm_num), if_pos (by norm_num)]
  norm_num

/-- Near inner tangency of equal unit disks the coded lens area is at
least `π - 6t` where `2t` is the separation. -/
theorem lens_kink (t : ℝ) (ht0 : 0 < t) (ht1 : t ≤ 1 / 2) :
    Real.pi - 6 * t ≤ lensArea (2 * t) 1 1 := by
  have harg : (2 * t * (2 * t) + 1 * 1 - 1 * 1) / (2 * (2 * t) * 1) = t := by
    field_simp
    ring
  have hclamp : clampUnit t = t :=
    clampUnit_eq t (by linarith) (by linarith)
  have hla : lensArea (2 * t) 1 1 =
      2 * Real.arccos t - Real.sin (2 * Real.arccos t) := by
    simp only [lensArea, harg, hclamp]
    ring
  have ht1' : t ≤ 1 := by linarith
  have hsin : Real.sin (2 * Real.arccos t) ≤ 2 * t := by
    rw [Real.sin_two_mul, Real.sin_arccos, Real.cos_arccos (by linarith) ht1']
    have hsq : Real.sqrt (1 - t ^ 2) ≤ 1 := Real.sqrt_le_one.mpr (by nlinarith)
    nlinarith [hsq]
  have harcsin : Real.arcsin t ≤ 2 * t := by
    have hlt : t < Real.sin (2 * t) := by
      have := Real.sin_gt_sub_cube (by linarith : 0 < 2 * t)
        (by linarith : 2 * t ≤ 1)
      nlinarith
    have hmono := Real.monotone_arcsin hlt.le
    rw [Real.arcsin_sin (by linarith [Real.pi_gt_three])
      (by linarith [Real.pi_gt_three])] at hmono
    exact hmono
  have hacos : Real.pi / 2 - 2 * t ≤ Real.arccos t := by
    rw [Real.arccos_eq_pi_div_two_sub_arcsin]
    linarith
  rw [hla]
  linarith

/-- The unrounded coverage of equal unit disks at separation `2·10⁻¹²`
strictly exceeds `100`: the lens area is within `6·10⁻¹²` of the true π
while the denominator uses the literal `3.1415926535`, which is smaller
by about `9·10⁻¹¹`. -/
theorem coverageRaw_kink_gt : (100 : ℝ) < coverageRaw (2 / 10 ^ 12) 1 1 := by
  have hl := lens_kink (1 / 10 ^ 12) (by norm_num) (by norm_num)
  have h2t : (2 : ℝ) / 10 ^ 12 = 2 * (1 / 10 ^ 12) := by norm_num
  rw [coverageRaw, if_neg (by norm_num), if_neg (by norm_num)]
  rw [h2t]
  have hden : (0 : ℝ) < piLit * (1 : ℝ) ^ 2 := by
    rw [piLit]; norm_num
  rw [lt_div_iff₀ hden]
  have hpi := Real.pi_gt_d20
  rw [piLit] at hden ⊢
  nlinarith [hl, hpi]

/-- Counterexample to claim C9 as stated: for equal unit radii the
unrounded coverage used by the contact scan is NOT non-increasing in the
separation — moving from separation `0` to `2·10⁻¹²` the value rises from
`100` to slightly above `100`, because the lens-area branch divides by the
literal `3.1415926535` instead of π. -/
theorem C9_monotone_counterexample :
    ¬ (∀ R r : ℝ, 0 ≤ R → 0 ≤ r → ∀ d1 d2 : ℝ, 0 ≤ d1 → d1 ≤ d2 →
        coverageRaw d2 R r ≤ coverageRaw d1 R r ∧
        overlapPercent d2 R r ≤ overlapPercent d1 R r) := by
  intro h
  have hc := (h 1 1 zero_le_one zero_le_one 0 (2 / 10 ^ 12) le_rfl
    (by norm_num)).1
  rw [coverageRaw_zero_one] at hc
  exact absurd hc (not_le.mpr coverageRaw_kink_gt)

/-- Claim C9 (amended): at the source's fixed radii, the ROUNDED overlap
percentage served by `async_calculate_coverage_percent` is monotonically
non-increasing in the separation. -/
theorem C9_rounded_overlap_antitone (d1 d2 : ℝ) (h0 : 0 ≤ d1) (h12 : d1 ≤ d2) :
    overlapPercent d2 sun_radius_rad moon_radius_rad ≤
      overlapPercent d1 sun_radius_rad moon_radius_rad := by
  by_cases ha : sun_radius_rad + moon_radius_rad ≤ d2
  · rw [overlapPercent, if_pos ha]
    exact (overlapPercent_bounds d1).1
  · have ha1 : ¬(sun_radius_rad + moon_radius_rad ≤ d1) := fun h => ha (le_trans h h12)
    by_cases hb : d2 ≤ |sun_radius_rad - moon_radius_rad|
    · have hb1 : d1 ≤ |sun_radius_rad - moon_radius_rad| := le_trans h12 hb
      rw [overlapPercent_contained d2 ha hb, overlapPercent_contained d1 ha1 hb1]
    · by_cases hc : d1 ≤ |sun_radius_rad - moon_radius_rad|
      · rw [overlapPercent_contained d1 ha1 hc, overlapPercent, if_neg ha,
          if_neg hb]
        exact roundTo1_le_93p8 _ (branch3_arg_lt d2 ha hb)
      · rw [overlapPercent, if_neg ha, if_neg hb, overlapPercent, if_neg ha1,
          if_neg hc]
        apply roundTo1_mono
        have hm := moon_radius_pos
        have hms := moon_lt_sun
        have hS : 0 < sun_radius_rad := lt_trans hm hms
        have hmono : lensArea d2 sun_radius_rad moon_radius_rad ≤
            lensArea d1 sun_radius_rad moon_radius_rad := by
          rcases eq_or_lt_of_le h12 with heq | hlt
          · rw [heq]
          · push_neg at ha ha1 hb hc
            rw [abs_radii_diff] at hb hc
            have hmem1 : d1 ∈ Set.Icc (sun_radius_rad - moon_radius_rad)
                (sun_radius_rad + moon_radius_rad) := ⟨hc.le, ha1.le⟩
            have hmem2 : d2 ∈ Set.Icc (sun_radius_rad - moon_radius_rad)
                (sun_radius_rad + moon_radius_rad) := ⟨hb.le, ha.le⟩
            have := lensArea_strictAntiOn sun_radius_rad moon_radius_rad hm hms
              hmem1 hmem2 hlt
            simpa using this.le
        have hden : (0 : ℝ) < piLit * sun_radius_rad ^ 2 :=
          mul_pos piLit_pos (by positivity)
        rw [div_le_div_iff_of_pos_right hden]
        linarith

/-- Witness for the amended C9 at separations `0 ≤ 1`. -/
theorem C9_rounded_overlap_antitone_witness :
    (0 : ℝ) ≤ 0 ∧ (0 : ℝ) ≤ 1 ∧
    overlapPercent 1 sun_radius_rad moon_radius_rad ≤
      overlapPercent 0 sun_radius_rad moon_radius_rad :=
  ⟨le_refl 0, by norm_num,
    C9_rounded_overlap_antitone 0 1 (le_refl 0) (by norm_num)⟩

end SolarEclipse
